import Mathlib

/-!
bufmg: schema-driven message synthesis

A shallow embedding of `main.go` of `cluttrdev/bufmg`.  The program walks a
protobuf message descriptor and fills a fresh dynamic message with one fixed
value per field.

* Descriptors form a possibly cyclic graph in Go (a field points at the
  descriptor of its message type).  Here the descriptors live in a pool and a
  field holds a reference into it, so self-referential schemas are ordinary
  values.
* `GenerateRandomMessage` recurses through `GenerateRandomValue` with no guard.
  The embedding carries a fuel bound on the nesting depth of the calls:
  `Result.outOfFuel` says that the bound was not enough.  A call terminates
  exactly when some bound makes it return or panic.
* The two effects of `GenerateRandomMessage`, reading the wall clock
  (`timestamppb.Now`) and writing to standard error
  (`fmt.Fprintln(os.Stderr, ...)`), act on an explicit `World`, which also
  holds standard output.
* `writeMessage` serializes with `proto.Marshal`, which visits the populated
  fields of a dynamic message in the order of a Go map; that order is a
  parameter (`FieldOrder`) of the serialization.
* What an instance reports as set is `Has`, with the presence rule of
  `dynamicpb`: a field without presence that holds its zero value is unset.
* A Go panic (index out of range, a failed `dynamicpb` type check, a nil
  descriptor) is `Result.panic`.
* `findMessageDescriptor` walks the registry with `RangeFiles`; the registry is
  the list of its files in the order of that walk.
-/

namespace Bufmg

/-! ## Descriptors (package `protoreflect`) -/

/-- The eighteen field kinds of `protoreflect.Kind`, in the order of their
declaration in that package. -/
inductive Kind where
  | BoolKind
  | EnumKind
  | Int32Kind
  | Sint32Kind
  | Uint32Kind
  | Int64Kind
  | Sint64Kind
  | Uint64Kind
  | Sfixed32Kind
  | Fixed32Kind
  | FloatKind
  | Sfixed64Kind
  | Fixed64Kind
  | DoubleKind
  | StringKind
  | BytesKind
  | MessageKind
  | GroupKind
  deriving DecidableEq, Repr

/-- One declared value of an enum: `protoreflect.EnumValueDescriptor`. -/
structure EnumValueDescriptor where
  Name : String
  Number : Int
  deriving DecidableEq, Repr

/-- An enum type, `protoreflect.EnumDescriptor`, with its values in declared order. -/
structure EnumDescriptor where
  FullName : String
  Values : List EnumValueDescriptor
  deriving DecidableEq, Repr

/-- A pointer to a message descriptor: an index into the descriptor pool. -/
abbrev MessageRef := Nat

/-- The part of `protoreflect.FieldDescriptor` the program and the message
operations read.  `Enum` and `Message` are `none` for the nil descriptor Go
returns on a field of another kind.  `ContainingOneof` is the index of the oneof
the field belongs to, if any.  `HasPresence` says whether the field tells an
unset field from one holding its zero value (a proto2 field, a message field, a
member of a oneof, a proto3 `optional`); `IsPacked` whether a repeated field is
written in the packed encoding. -/
structure FieldDescriptor where
  Name : String
  Number : Nat
  Kind : Kind
  IsList : Bool
  IsMap : Bool
  ContainingOneof : Option Nat
  Enum : Option EnumDescriptor
  Message : Option MessageRef
  HasPresence : Bool
  IsPacked : Bool
  deriving DecidableEq, Repr

/-- The part of `protoreflect.MessageDescriptor` the program reads: short name,
fully-qualified name and the fields in declared order. -/
structure MessageDescriptor where
  Name : String
  FullName : String
  Fields : List FieldDescriptor
  deriving DecidableEq, Repr

/-- The descriptor graph: what each message reference points at. -/
abbrev Pool := MessageRef → MessageDescriptor

/-! ## Values and messages -/

mutual
/-- The contents of a `protoreflect.Value`; `invalid` is the zero `Value{}`. -/
inductive Value where
  | invalid
  | bool (b : Bool)
  | int32 (n : Int)
  | int64 (n : Int)
  | uint32 (n : Nat)
  | uint64 (n : Nat)
  | float32 (bits : Nat)
  | float64 (bits : Nat)
  | string (s : String)
  | bytes (b : List Nat)
  | enum (n : Int)
  | message (m : Message)
  | list (elems : List Value)
/-- A message instance: its descriptor and the values it holds, keyed by field
number (the `known` map of a `dynamicpb.Message`). -/
inductive Message where
  | mk (Descriptor : MessageDescriptor) (known : List (Nat × Value))
end

/-- Descriptor of a message instance, `m.Descriptor()`. -/
def Message.Descriptor : Message → MessageDescriptor
  | .mk d _ => d

/-- The stored fields of a message instance. -/
def Message.known : Message → List (Nat × Value)
  | .mk _ k => k

/-- What the instance holds under a field number, if anything. -/
def Message.get? (m : Message) (num : Nat) : Option Value :=
  m.known.lookup num

/-! ## Outcomes and the world -/

/-- Outcome of a call: a returned value, a Go panic, or a nesting depth beyond
the fuel bound. -/
inductive Result (α : Type) where
  | ret (a : α)
  | panic
  | outOfFuel

/-- Sequencing of outcomes: the continuation runs only after a return. -/
def Result.bind {α β : Type} (r : Result α) (f : α → Result β) : Result β :=
  match r with
  | .ret a => f a
  | .panic => .panic
  | .outOfFuel => .outOfFuel

/-- A reading of the wall clock: `t.Unix()` and `t.Nanosecond()` of a `time.Time`. -/
structure Instant where
  Unix : Int
  Nanosecond : Fin 1000000000
  deriving DecidableEq

/-- The environment of a call: the readings the wall clock will give, in the
order they are asked for, the text written to standard error so far, and the
bytes written to standard output so far. -/
structure World where
  clock : Nat → Instant
  stderr : List String
  stdout : List Nat

/-- Effect of `fmt.Fprintln(os.Stderr, s)`: the text and a newline are written. -/
def World.Fprintln (w : World) (s : String) : World :=
  { w with stderr := w.stderr ++ [s ++ "\n"] }

/-- Effect of `time.Now()`: the next reading of the clock is consumed. -/
def World.Now (w : World) : Instant × World :=
  (w.clock 0, { w with clock := fun n => w.clock (n + 1) })

/-! ## Message operations (packages `dynamicpb` and `timestamppb`) -/

/-- `dynamicpb.NewMessage(md).New()`: a fresh instance of `md` holding nothing. -/
def NewMessage (md : MessageDescriptor) : Message :=
  .mk md []

/-- The assignment `known[num] = v` of a `dynamicpb.Message`. -/
def Message.store (m : Message) (num : Nat) (v : Value) : Message :=
  .mk m.Descriptor (m.known.filter (fun e => e.1 != num) ++ [(num, v)])

/-- The numbers of the other members of the oneof of `fd`, which a write to `fd`
deletes: the fields of the message type in the same oneof with another number. -/
def otherOneofFields (md : MessageDescriptor) (fd : FieldDescriptor) : List Nat :=
  match fd.ContainingOneof with
  | none => []
  | some od =>
    (md.Fields.filter (fun g => g.ContainingOneof == some od && g.Number != fd.Number)).map
      (fun g => g.Number)

/-- `clearOtherOneofFields` of `dynamicpb`: writing a member of a oneof clears the
other members of that oneof (the contract of `protoreflect.Message.Set`). -/
def clearOtherOneofFields (m : Message) (fd : FieldDescriptor) : Message :=
  .mk m.Descriptor (m.known.filter (fun e => !(otherOneofFields m.Descriptor fd).contains e.1))

/-- The check `dynamicpb` runs on a single (non-list, non-map) value: the Go
type held by the value must be the one of the field kind, and a message value
must have the full name of the message type of the field.  The zero `Value{}`
passes for no kind. -/
def singularTypeIsValid (P : Pool) (fd : FieldDescriptor) (v : Value) : Bool :=
  match fd.Kind, v with
  | .BoolKind, .bool _ => true
  | .EnumKind, .enum _ => true
  | .Int32Kind, .int32 _ => true
  | .Sint32Kind, .int32 _ => true
  | .Sfixed32Kind, .int32 _ => true
  | .Int64Kind, .int64 _ => true
  | .Sint64Kind, .int64 _ => true
  | .Sfixed64Kind, .int64 _ => true
  | .Uint32Kind, .uint32 _ => true
  | .Fixed32Kind, .uint32 _ => true
  | .Uint64Kind, .uint64 _ => true
  | .Fixed64Kind, .uint64 _ => true
  | .FloatKind, .float32 _ => true
  | .DoubleKind, .float64 _ => true
  | .StringKind, .string _ => true
  | .BytesKind, .bytes _ => true
  | .MessageKind, .message m =>
    match fd.Message with
    | some r => m.Descriptor.FullName == (P r).FullName
    | none => false
  | .GroupKind, .message m =>
    match fd.Message with
    | some r => m.Descriptor.FullName == (P r).FullName
    | none => false
  | _, _ => false

/-- The check of `m.Set(fd, v)`: an invalid value is refused, a map field takes
only a map (no value of the program is one), a list field only a list, any
other field a single value of its kind. -/
def typeIsValid (P : Pool) (fd : FieldDescriptor) (v : Value) : Bool :=
  match v with
  | .invalid => false
  | .list _ => !fd.IsMap && fd.IsList
  | _ => !fd.IsMap && !fd.IsList && singularTypeIsValid P fd v

/-- `m.Set(fd, v)`: panics when the type check fails; otherwise clears the other
members of the oneof of `fd` and stores `v` under the number of `fd`.  The
interface `protoreflect.Message` documents it: "For a field belonging to a
oneof, it implicitly clears any other field that may be currently set within
the same oneof." -/
def Message.Set (P : Pool) (m : Message) (fd : FieldDescriptor) (v : Value) : Result Message :=
  if typeIsValid P fd v then
    .ret ((clearOtherOneofFields m fd).store fd.Number v)
  else
    .panic

/-- `m.Mutable(fd)` on a list field: the list already stored under `fd` is
returned as it is; a field holding nothing gets a new empty list, after the
other members of its oneof are cleared. -/
def Message.Mutable (m : Message) (fd : FieldDescriptor) : Message :=
  match m.get? fd.Number with
  | some _ => m
  | none => (clearOtherOneofFields m fd).store fd.Number (.list [])

/-- The call `.List()` on the value `m.Mutable(fd)` returned, which is what the
message holds under `fd`: it panics unless that value is a list. -/
def Message.ListAt (m : Message) (fd : FieldDescriptor) : Result (List Value) :=
  match m.get? fd.Number with
  | some (.list elems) => .ret elems
  | _ => .panic

/-- The call `Append(v)` on the list under `fd`, of elements `elems`: it panics
unless `v` passes the check for a single value of the field, and otherwise `v`
is added at the end of the list. -/
def Message.Append (P : Pool) (m : Message) (fd : FieldDescriptor) (elems : List Value)
    (v : Value) : Result Message :=
  if singularTypeIsValid P fd v then
    .ret (m.store fd.Number (.list (elems ++ [v])))
  else
    .panic

/-- The descriptor of the generated type `timestamppb.Timestamp`. -/
def timestampDescriptor : MessageDescriptor where
  Name := "Timestamp"
  FullName := "google.protobuf.Timestamp"
  Fields :=
    [ { Name := "seconds", Number := 1, Kind := .Int64Kind, IsList := false, IsMap := false,
        ContainingOneof := none, Enum := none, Message := none, HasPresence := false,
        IsPacked := false },
      { Name := "nanos", Number := 2, Kind := .Int32Kind, IsList := false, IsMap := false,
        ContainingOneof := none, Enum := none, Message := none, HasPresence := false,
        IsPacked := false } ]

/-- `timestamppb.New(t).ProtoReflect()`: the message
`Timestamp{Seconds: t.Unix(), Nanos: int32(t.Nanosecond())}`.  A nanosecond
count is below `10^9`, so the conversion to `int32` keeps it. -/
def timestamppbNew (t : Instant) : Message :=
  .mk timestampDescriptor [(1, .int64 t.Unix), (2, .int32 (Int.ofNat t.Nanosecond.val))]

/-! ## The program (`main.go`) -/

/-- `GenerateRandomValue` (main.go 158-186).  `gen` stands for the recursive
call to `GenerateRandomMessage`.  An enum with no value makes `Values().Get(0)`
panic, as does a nil enum or message descriptor; a kind outside the cases of
the switch falls through to the zero `Value{}`. -/
def GenerateRandomValue (P : Pool)
    (gen : MessageDescriptor → World → Result (Message × World))
    (fd : FieldDescriptor) (w : World) : Result (Value × World) :=
  match fd.Kind with
  | .BoolKind => .ret (.bool true, w)
  | .Int32Kind => .ret (.int32 42, w)
  | .Sint32Kind => .ret (.int32 42, w)
  | .Sfixed32Kind => .ret (.int32 42, w)
  | .Int64Kind => .ret (.int64 1337, w)
  | .Sint64Kind => .ret (.int64 1337, w)
  | .Sfixed64Kind => .ret (.int64 1337, w)
  | .Uint32Kind => .ret (.uint32 42, w)
  | .Fixed32Kind => .ret (.uint32 42, w)
  | .Uint64Kind => .ret (.uint64 1337, w)
  | .Fixed64Kind => .ret (.uint64 1337, w)
  | .FloatKind => .ret (.float32 0x402df84d, w)
  | .DoubleKind => .ret (.float64 0x400921fb542fe938, w)
  | .StringKind => .ret (.string "Lorem ipsum", w)
  | .BytesKind => .ret (.bytes [0xc0, 0xff, 0xee], w)
  | .EnumKind =>
    match fd.Enum with
    | none => .panic
    | some e =>
      match e.Values with
      | [] => .panic
      | v :: _ => .ret (.enum v.Number, w)
  | .MessageKind =>
    match fd.Message with
    | none => .panic
    | some nd => (gen (P nd) w).bind fun (n, w1) => .ret (.message n, w1)
  | .GroupKind => .ret (.invalid, w)

/-- `SetRandomValueFun(m)` (main.go 146-156), applied to a field: the closure
acts on the message `m` it captured and on the world.  For a list field Go
evaluates the receiver `m.Mutable(fd).List()` before the argument. -/
def SetRandomValueFun (P : Pool)
    (gen : MessageDescriptor → World → Result (Message × World))
    (fd : FieldDescriptor) (s : Message × World) : Result (Bool × Message × World) :=
  if fd.IsList then
    let m1 := s.1.Mutable fd
    (m1.ListAt fd).bind fun elems =>
      (GenerateRandomValue P gen fd s.2).bind fun (v, w1) =>
        (m1.Append P fd elems v).bind fun m2 => .ret (true, m2, w1)
  else
    (GenerateRandomValue P gen fd s.2).bind fun (v, w1) =>
      (s.1.Set P fd v).bind fun m1 => .ret (true, m1, w1)

/-- The loop of `RangeFields` over the fields from index `i` on. -/
def RangeFields.loop {σ : Type} (fun_ : FieldDescriptor → σ → Result (Bool × σ)) :
    List FieldDescriptor → σ → Result σ
  | [], s => .ret s
  | fd :: rest, s => (fun_ fd s).bind fun (_, s1) => RangeFields.loop fun_ rest s1

/-- `RangeFields` (main.go 140-144): `fun` is applied to `md.Fields().Get(i)` for
`i` from `0` to `Len() - 1`; the boolean it returns is dropped. -/
def RangeFields {σ : Type} (md : MessageDescriptor)
    (fun_ : FieldDescriptor → σ → Result (Bool × σ)) (s : σ) : Result σ :=
  RangeFields.loop fun_ md.Fields s

/-- `GenerateRandomMessage` (main.go 127-138), with a bound `fuel` on the depth
of nested calls. -/
def GenerateRandomMessage (P : Pool) : Nat → MessageDescriptor → World → Result (Message × World)
  | 0, _, _ => .outOfFuel
  | fuel + 1, md, w =>
    let w1 := w.Fprintln md.Name
    if md.FullName = "google.protobuf.Timestamp" then
      let (t, w2) := w1.Now
      .ret (timestamppbNew t, w2)
    else
      let m := NewMessage md
      RangeFields md (SetRandomValueFun P (GenerateRandomMessage P fuel)) (m, w1)

/-! ## Example schemas -/

/-- A scalar, singular field outside any oneof, without presence (as proto3
declares it) and not packed. -/
def scalarField (name : String) (num : Nat) (k : Kind) : FieldDescriptor where
  Name := name
  Number := num
  Kind := k
  IsList := false
  IsMap := false
  ContainingOneof := none
  Enum := none
  Message := none
  HasPresence := false
  IsPacked := false

/-- A singular field of a message type. -/
def messageField (name : String) (num : Nat) (r : MessageRef) : FieldDescriptor :=
  { scalarField name num .MessageKind with Message := some r, HasPresence := true }

/-- The descriptor of `Address { string city = 1; }`. -/
def addressDescriptor : MessageDescriptor where
  Name := "Address"
  FullName := "Address"
  Fields := [scalarField "city" 1 .StringKind]

/-- The descriptor of
`Person { string name = 1; int32 age = 2; repeated string emails = 3; Address home = 4; }`. -/
def personDescriptor : MessageDescriptor where
  Name := "Person"
  FullName := "Person"
  Fields :=
    [ scalarField "name" 1 .StringKind,
      scalarField "age" 2 .Int32Kind,
      { scalarField "emails" 3 .StringKind with IsList := true },
      messageField "home" 4 1 ]

/-- Pool of the Person schema: reference 1 is `Address`, every other one `Person`. -/
def personPool : Pool := fun r => if r = 1 then addressDescriptor else personDescriptor

/-- A world whose clock always reads the instant `t` and whose standard error
and standard output are empty. -/
def worldAt (t : Instant) : World where
  clock := fun _ => t
  stderr := []
  stdout := []

/-- A field of kind group, as proto2 declares with `optional group G = 1 { ... }`. -/
def groupField : FieldDescriptor :=
  { scalarField "g" 1 .GroupKind with Message := some 0 }

/-- A message type whose only field is a group. -/
def groupDescriptor : MessageDescriptor where
  Name := "WithGroup"
  FullName := "WithGroup"
  Fields := [groupField]

/-- The descriptor of `Node { int32 id = 1; repeated Node children = 2; }`. -/
def nodeDescriptor : MessageDescriptor where
  Name := "Node"
  FullName := "Node"
  Fields :=
    [ scalarField "id" 1 .Int32Kind,
      { messageField "children" 2 0 with IsList := true, HasPresence := false } ]

/-- Pool of the Node schema: every reference points at `Node`. -/
def nodePool : Pool := fun _ => nodeDescriptor

/-- One recursive expansion: a call of `GenerateRandomMessage` on `a` fills its
fields, and one of them is a nested-message field of type `b`.  A descriptor
named `google.protobuf.Timestamp` expands nothing. -/
def Expands (P : Pool) (a b : MessageDescriptor) : Prop :=
  a.FullName ≠ "google.protobuf.Timestamp" ∧
    ∃ fd ∈ a.Fields, fd.Kind = .MessageKind ∧ ∃ r, fd.Message = some r ∧ P r = b

/-- The field numbers of a message type are pairwise distinct, as the schema
language requires of every message. -/
def UniqueNumbers (md : MessageDescriptor) : Prop :=
  (md.Fields.map (fun fd => fd.Number)).Nodup

/-- The field `g` is a member of a oneof, the same one as `fd`. -/
def sharesOneof (g fd : FieldDescriptor) : Bool :=
  g.ContainingOneof.isSome && g.ContainingOneof == fd.ContainingOneof

/-- The fields declared after `fd` in a list of fields. -/
def declaredAfter : List FieldDescriptor → FieldDescriptor → List FieldDescriptor
  | [], _ => []
  | g :: rest, fd => if g = fd then rest else declaredAfter rest fd

/-- No field declared after `fd` is a member of the oneof of `fd`: nothing that
`RangeFields` visits later clears `fd`. -/
def KeptToEnd (md : MessageDescriptor) (fd : FieldDescriptor) : Prop :=
  ∀ g ∈ declaredAfter md.Fields fd, sharesOneof g fd = false

/-- The shape every message of the schema language has: the field numbers are
pairwise distinct and no member of a oneof is repeated. -/
def WellFormed (md : MessageDescriptor) : Prop :=
  UniqueNumbers md ∧ ∀ fd ∈ md.Fields, fd.IsList = true → fd.ContainingOneof = none

/-- An enum whose first declared value has the number 7. -/
def colorEnum : EnumDescriptor where
  FullName := "Color"
  Values := [⟨"RED", 7⟩, ⟨"GREEN", 0⟩]

/-- A singular field of the enum type `Color`, with presence: an enum whose
first value is not 0 is a proto2 enum, and proto2 fields have presence. -/
def colorField (name : String) (num : Nat) : FieldDescriptor :=
  { scalarField name num .EnumKind with Enum := some colorEnum, HasPresence := true }

/-- The descriptor of `Paint { Color color = 1; repeated Color palette = 2; }`. -/
def paintDescriptor : MessageDescriptor where
  Name := "Paint"
  FullName := "Paint"
  Fields := [colorField "color" 1, { colorField "palette" 2 with IsList := true, HasPresence := false }]

/-- The descriptor of a user message named like the timestamp type:
`package google.protobuf; message Timestamp { int64 seconds = 1; int32 nanos = 2;
repeated string tags = 3; Color color = 4; Address home = 5; }`. -/
def taggedTimestampDescriptor : MessageDescriptor where
  Name := "Timestamp"
  FullName := "google.protobuf.Timestamp"
  Fields :=
    [ scalarField "seconds" 1 .Int64Kind,
      scalarField "nanos" 2 .Int32Kind,
      { scalarField "tags" 3 .StringKind with IsList := true },
      colorField "color" 4,
      messageField "home" 5 1 ]

/-- The descriptor of
`Choice { oneof c { string a = 1; Color b = 2; Address d = 3; int32 e = 4; } }`. -/
def choiceDescriptor : MessageDescriptor where
  Name := "Choice"
  FullName := "Choice"
  Fields :=
    [ { scalarField "a" 1 .StringKind with ContainingOneof := some 0, HasPresence := true },
      { colorField "b" 2 with ContainingOneof := some 0 },
      { messageField "d" 3 1 with ContainingOneof := some 0 },
      { scalarField "e" 4 .Int32Kind with ContainingOneof := some 0, HasPresence := true } ]

/-- The instance of `Address` with city = "Lorem ipsum". -/
def addressInstance : Message :=
  .mk addressDescriptor [(1, .string "Lorem ipsum")]

/-- The instance of `Person` with name = "Lorem ipsum", age = 42,
emails = ["Lorem ipsum"] and home = the address instance. -/
def personInstance : Message :=
  .mk personDescriptor
    [ (1, .string "Lorem ipsum"),
      (2, .int32 42),
      (3, .list [.string "Lorem ipsum"]),
      (4, .message addressInstance) ]

/-- The instance of `Paint` with color = 7 and palette = [7]. -/
def paintInstance : Message :=
  .mk paintDescriptor [(1, .enum 7), (2, .list [.enum 7])]

/-- The descriptor of `Event { google.protobuf.Timestamp created = 1; }`. -/
def eventDescriptor : MessageDescriptor where
  Name := "Event"
  FullName := "Event"
  Fields := [messageField "created" 1 0]

/-- Pool of the Event schema: every reference points at the timestamp type. -/
def eventPool : Pool := fun _ => timestampDescriptor

/-- The instance of `Event` whose field `created` is the timestamp of the instant `t`. -/
def eventInstance (t : Instant) : Message :=
  .mk eventDescriptor [(1, .message (timestamppbNew t))]

/-- No call that `GenerateRandomMessage` on `md` leads to is made on a
descriptor named `google.protobuf.Timestamp`: no such descriptor is reached from
`md` through nested-message fields, `md` included. -/
def TimestampFree (P : Pool) (md : MessageDescriptor) : Prop :=
  ∀ d, Relation.ReflTransGen (Expands P) md d → d.FullName ≠ "google.protobuf.Timestamp"

/-- Whatever instance `gen` returns on `d` from a world, `gen1` returns on `d`
from every world that `R` relates to it, ending in worlds that `R` relates. -/
def Simulates (R : World → World → Prop)
    (gen gen1 : MessageDescriptor → World → Result (Message × World))
    (d : MessageDescriptor) : Prop :=
  ∀ w1 w2 m w3, R w1 w2 → gen d w1 = .ret (m, w3) → ∃ w4, gen1 d w2 = .ret (m, w4) ∧ R w3 w4

/-- A descriptor named like the timestamp type that declares an enum without
values, a group and a field of its own type. -/
def oddTimestampDescriptor : MessageDescriptor where
  Name := "Timestamp"
  FullName := "google.protobuf.Timestamp"
  Fields :=
    [ { scalarField "e" 1 .EnumKind with Enum := some ⟨"E", []⟩ },
      groupField,
      messageField "self" 3 0 ]

/-! ## Schema lookup (`findMessageDescriptor`) -/

/-- The part of `protoreflect.FileDescriptor` the lookup reads: the package name
and the top-level messages of the file in declared order. -/
structure FileDescriptor where
  Path : String
  Package : String
  Messages : List MessageDescriptor

/-- The files of a `protoregistry.Files`, in the order in which `RangeFiles`
visits them.  The registry keeps its files in a Go map, so each order of the
registered files is one that a run can see. -/
abbrev Files := List FileDescriptor

/-- The text `sub` occurs in the text `s`: it starts `s` or occurs in the rest. -/
def containsChars : List Char → List Char → Bool
  | [], sub => sub.isPrefixOf []
  | c :: t, sub => sub.isPrefixOf (c :: t) || containsChars t sub

/-- `strings.Contains(s, substr)`.  Go compares bytes; for the UTF-8 text of a Go
string an occurrence of bytes is an occurrence of characters. -/
def strings.Contains (s substr : String) : Bool :=
  containsChars s.data substr.data

/-- The part of a text after its last dot; the whole text when it has no dot. -/
def lastSegment (l : List Char) : List Char :=
  (l.reverse.takeWhile (fun c => c != '.')).reverse

/-- `protoreflect.FullName.Name`: the last identifier segment, what follows
`strings.LastIndexByte(n, '.')`; a name of a single segment is returned as it is. -/
def FullName.Name (n : String) : String :=
  String.mk (lastSegment n.data)

/-- `fd.Messages().ByName(s)`: the top-level message of the file with the short
name `s`, `none` for the nil descriptor. -/
def ByName (ms : List MessageDescriptor) (s : String) : Option MessageDescriptor :=
  ms.find? (fun d => d.Name == s)

/-- `reg.RangeFiles(f)`: `f` is called on the files in turn until it returns
false.  `σ` is the state that the closure `f` captured. -/
def RangeFiles {σ : Type} (f : FileDescriptor → σ → Bool × σ) : Files → σ → σ
  | [], s => s
  | fd :: rest, s =>
    match f fd s with
    | (true, s1) => RangeFiles f rest s1
    | (false, s1) => s1

/-- `findMessageDescriptor` (main.go 106-125).  The state of the closure is the
variable `md`, `none` for nil. -/
def findMessageDescriptor (reg : Files) (name : String) : Except String MessageDescriptor :=
  let md : Option MessageDescriptor :=
    RangeFiles
      (fun fd md =>
        if strings.Contains name fd.Package then
          let md1 := ByName fd.Messages (FullName.Name name)
          if md1.isSome then (false, md1) else (true, md1)
        else
          (true, md))
      reg none
  match md with
  | none => .error "not found"
  | some d => .ok d

/-- The message `M` of package `foo.bar`. -/
def fooBarM : MessageDescriptor where
  Name := "M"
  FullName := "foo.bar.M"
  Fields := []

/-- The file `package foo.bar; message M {}`. -/
def fooBarFile : FileDescriptor where
  Path := "bar.proto"
  Package := "foo.bar"
  Messages := [fooBarM]

/-- The file of the Person schema, without package: `message Address`, `message Person`. -/
def personFile : FileDescriptor where
  Path := "person.proto"
  Package := ""
  Messages := [addressDescriptor, personDescriptor]

/-! ## Nested-message references and output -/

/-- A nested-message reference: `a` has a field of kind message whose message
type is `b`. -/
def Nests (P : Pool) (a b : MessageDescriptor) : Prop :=
  ∃ fd ∈ a.Fields, fd.Kind = .MessageKind ∧ ∃ r, fd.Message = some r ∧ P r = b

/-- Every chain of nested-message references that starts at `md` has at most `n` links. -/
def ChainsWithin (P : Pool) : Nat → MessageDescriptor → Prop
  | 0, md => ∀ b, ¬ Nests P md b
  | n + 1, md => ∀ b, Nests P md b → ChainsWithin P n b

/-- The lines that filling the field `fd` writes, when a call on the message type
behind the reference `r` writes the lines `T r`: those of the nested call for a
field of kind message, none for another field. -/
def nestedLines (T : MessageRef → List String) (fd : FieldDescriptor) : List String :=
  match fd.Kind, fd.Message with
  | .MessageKind, some r => T r
  | _, _ => []

/-- The lines that the calls of `GenerateRandomMessage` nested at most `fuel`
deep write to standard error, in the order of the calls: the short name of the
descriptor of each call. -/
def stderrLines (P : Pool) : Nat → MessageDescriptor → List String
  | 0, _ => []
  | fuel + 1, md =>
    (md.Name ++ "\n") ::
      (if md.FullName = "google.protobuf.Timestamp" then []
       else md.Fields.flatMap (nestedLines fun r => stderrLines P fuel (P r)))

/-- The entry type of the map field of `Labels`: `LabelsEntry { string key = 1; string value = 2; }`. -/
def labelsEntryDescriptor : MessageDescriptor where
  Name := "LabelsEntry"
  FullName := "Labels.LabelsEntry"
  Fields := [scalarField "key" 1 .StringKind, scalarField "value" 2 .StringKind]

/-- The descriptor of `Labels { map<string, string> labels = 1; }`. -/
def labelsDescriptor : MessageDescriptor where
  Name := "Labels"
  FullName := "Labels"
  Fields := [{ messageField "labels" 1 1 with IsMap := true, HasPresence := false }]

/-- Pool of the Labels schema: reference 1 is the entry type, every other one `Labels`. -/
def labelsPool : Pool := fun r => if r = 1 then labelsEntryDescriptor else labelsDescriptor

/-- A field that the program can fill: not of kind group, not a map, with an enum
that declares a value when it is of kind enum and a message type when it is of
kind message. -/
def Supported (fd : FieldDescriptor) : Prop :=
  fd.Kind ≠ .GroupKind ∧ fd.IsMap = false ∧
    (fd.Kind = .EnumKind → ∃ e v rest, fd.Enum = some e ∧ e.Values = v :: rest) ∧
    (fd.Kind = .MessageKind → ∃ r, fd.Message = some r)

/-! ## Reading an instance back: `Has` -/

/-- `v.Bool()`: the boolean a value holds; a panic for a value of another type. -/
def Value.getBool : Value → Result Bool
  | .bool b => .ret b
  | _ => .panic

/-- `v.Enum()`: the enum number a value holds; a panic for a value of another type. -/
def Value.getEnum : Value → Result Int
  | .enum n => .ret n
  | _ => .panic

/-- `v.Int()`: the signed integer a value of type int32 or int64 holds; a panic otherwise. -/
def Value.getInt : Value → Result Int
  | .int32 n => .ret n
  | .int64 n => .ret n
  | _ => .panic

/-- `v.Uint()`: the unsigned integer a value of type uint32 or uint64 holds; a
panic otherwise. -/
def Value.getUint : Value → Result Nat
  | .uint32 n => .ret n
  | .uint64 n => .ret n
  | _ => .panic

/-- `v.Bytes()`: the bytes a value holds; a panic for a value of another type. -/
def Value.getBytes : Value → Result (List Nat)
  | .bytes b => .ret b
  | _ => .panic

/-- The bit pattern of the floating-point number a value holds; a panic for a
value of another type.  Of the bit patterns only that of `+0` is all zero. -/
def Value.getFloatBits : Value → Result Nat
  | .float32 bits => .ret bits
  | .float64 bits => .ret bits
  | _ => .panic

/-- `isSet` of `dynamicpb`, by which `Has` and `Range` decide whether a stored
value counts as a populated field: a list counts when it has an element, a
member of a oneof and a field with presence always count, and a field without
presence counts unless it holds the zero value of its kind (`false`, the enum
number 0, the integer 0, the float `+0`, the empty text, no bytes).  Taking the
map or the list of a value that is none panics. -/
def isSet (fd : FieldDescriptor) (v : Value) : Result Bool :=
  if fd.IsMap then .panic
  else if fd.IsList then
    match v with
    | .list elems => .ret (decide (0 < elems.length))
    | _ => .panic
  else if fd.ContainingOneof.isSome then .ret true
  else if fd.HasPresence then .ret true
  else
    match fd.Kind with
    | .BoolKind => v.getBool
    | .EnumKind => v.getEnum.bind fun n => .ret (n != 0)
    | .Int32Kind => v.getInt.bind fun n => .ret (n != 0)
    | .Sint32Kind => v.getInt.bind fun n => .ret (n != 0)
    | .Int64Kind => v.getInt.bind fun n => .ret (n != 0)
    | .Sint64Kind => v.getInt.bind fun n => .ret (n != 0)
    | .Sfixed32Kind => v.getInt.bind fun n => .ret (n != 0)
    | .Sfixed64Kind => v.getInt.bind fun n => .ret (n != 0)
    | .Uint32Kind => v.getUint.bind fun n => .ret (n != 0)
    | .Uint64Kind => v.getUint.bind fun n => .ret (n != 0)
    | .Fixed32Kind => v.getUint.bind fun n => .ret (n != 0)
    | .Fixed64Kind => v.getUint.bind fun n => .ret (n != 0)
    | .FloatKind => v.getFloatBits.bind fun bits => .ret (bits != 0)
    | .DoubleKind => v.getFloatBits.bind fun bits => .ret (bits != 0)
    | .StringKind =>
      match v with
      | .string s => .ret (s != "")
      | _ => .ret true
    | .BytesKind => v.getBytes.bind fun b => .ret (!b.isEmpty)
    | .MessageKind => .ret true
    | .GroupKind => .ret true

/-- `m.Has(fd)`: whether the instance reports the field as populated.
`checkField` panics on a field descriptor that is not a field of the message
type of the instance.  Nothing stored under the number of the field is unset; a
stored value goes through `isSet`. -/
def Message.Has (m : Message) (fd : FieldDescriptor) : Result Bool :=
  if fd ∈ m.Descriptor.Fields then
    match m.get? fd.Number with
    | none => .ret false
    | some v => isSet fd v
  else .panic

/-- The field is a singular enum field without presence, outside any oneof,
whose enum starts with the number 0: the value the program gives it is the zero
value, which `Has` reports as unset.  Every enum field of a proto3 message that
is not `optional`, repeated or in a oneof is such a field. -/
def zeroEnumWithoutPresence (fd : FieldDescriptor) : Bool :=
  !fd.IsList && fd.ContainingOneof.isNone && !fd.HasPresence && fd.Kind == .EnumKind &&
    match fd.Enum with
    | some e =>
      match e.Values with
      | v :: _ => v.Number == 0
      | [] => false
    | none => false

/-- The proto3 enum `Status { UNKNOWN = 0; OK = 1; }`. -/
def statusEnum : EnumDescriptor where
  FullName := "Status"
  Values := [⟨"UNKNOWN", 0⟩, ⟨"OK", 1⟩]

/-- The descriptor of the proto3 message `P3 { Status s = 1; }`. -/
def p3Descriptor : MessageDescriptor where
  Name := "P3"
  FullName := "P3"
  Fields := [{ scalarField "s" 1 .EnumKind with Enum := some statusEnum }]

/-- The fields declared before `fd` in a list of fields. -/
def declaredBefore : List FieldDescriptor → FieldDescriptor → List FieldDescriptor
  | [], _ => []
  | g :: rest, fd => if g = fd then [] else g :: declaredBefore rest fd

/-! ## The effect of a call on the world -/

/-- The clock readings that filling the field `fd` consumes, when a call on the
message type behind the reference `r` consumes `T r` of them. -/
def nestedReads (T : MessageRef → Nat) (fd : FieldDescriptor) : Nat :=
  match fd.Kind, fd.Message with
  | .MessageKind, some r => T r
  | _, _ => 0

/-- The number of clock readings that the calls of `GenerateRandomMessage`
nested at most `fuel` deep consume: one for each call on a descriptor named
`google.protobuf.Timestamp`. -/
def clockReads (P : Pool) : Nat → MessageDescriptor → Nat
  | 0, _ => 0
  | fuel + 1, md =>
    if md.FullName = "google.protobuf.Timestamp" then 1
    else (md.Fields.map (nestedReads fun r => clockReads P fuel (P r))).sum

/-- The world after `k` readings of the clock were consumed and the lines
`lines` were written to standard error; standard output is as before. -/
def World.advance (w : World) (k : Nat) (lines : List String) : World where
  clock := fun n => w.clock (n + k)
  stderr := w.stderr ++ lines
  stdout := w.stdout

/-! ## Serialization (`writeMessage`, package `proto`) -/

/-- The bytes of `protowire.AppendVarint`, least significant group first; `fuel`
bounds the number of bytes. -/
def protowire.varintBytes : Nat → Nat → List Nat
  | 0, _ => []
  | fuel + 1, v => if v < 128 then [v] else (v % 128 + 128) :: protowire.varintBytes fuel (v / 128)

/-- `protowire.AppendVarint`: the bytes it appends for the unsigned 64-bit `v`,
at most ten. -/
def protowire.AppendVarint (v : Nat) : List Nat :=
  protowire.varintBytes 10 (v % 2 ^ 64)

/-- `protowire.EncodeTag`: `num << 3 | typ & 7`. -/
def protowire.EncodeTag (num typ : Nat) : Nat :=
  num * 8 + typ % 8

/-- `protowire.AppendTag`: the varint of the tag. -/
def protowire.AppendTag (num typ : Nat) : List Nat :=
  protowire.AppendVarint (protowire.EncodeTag num typ)

/-- `protowire.AppendFixed32`: four bytes, little endian. -/
def protowire.AppendFixed32 (v : Nat) : List Nat :=
  [v % 256, v / 256 % 256, v / 65536 % 256, v / 16777216 % 256]

/-- `protowire.AppendFixed64`: eight bytes, little endian. -/
def protowire.AppendFixed64 (v : Nat) : List Nat :=
  protowire.AppendFixed32 (v % 2 ^ 32) ++ protowire.AppendFixed32 (v / 2 ^ 32 % 2 ^ 32)

/-- `protowire.EncodeZigZag` of a signed 64-bit integer: `uint64(v << 1) ^ uint64(v >> 63)`. -/
def protowire.EncodeZigZag (v : Int) : Nat :=
  if 0 ≤ v then (2 * v).toNat % 2 ^ 64 else (-2 * v - 1).toNat % 2 ^ 64

/-- The Go conversion `int32(v)` of a signed integer: the low 32 bits, read as signed. -/
def toInt32 (v : Int) : Int :=
  (v + 2 ^ 31) % 2 ^ 32 - 2 ^ 31

/-- The Go conversion `uint64(v)` of a signed integer: two's complement on 64 bits. -/
def toUint64 (v : Int) : Nat :=
  (v % 2 ^ 64).toNat

/-- The table `wireTypes` of package `proto`: varint 0, fixed64 1, bytes 2, start
of group 3, fixed32 5. -/
def wireTypes : Kind → Nat
  | .BoolKind => 0
  | .EnumKind => 0
  | .Int32Kind => 0
  | .Sint32Kind => 0
  | .Uint32Kind => 0
  | .Int64Kind => 0
  | .Sint64Kind => 0
  | .Uint64Kind => 0
  | .Sfixed32Kind => 5
  | .Fixed32Kind => 5
  | .FloatKind => 5
  | .Sfixed64Kind => 1
  | .Fixed64Kind => 1
  | .DoubleKind => 1
  | .StringKind => 2
  | .BytesKind => 2
  | .MessageKind => 2
  | .GroupKind => 3

/-- The UTF-8 bytes of a text. -/
def utf8Bytes (s : String) : List Nat :=
  s.data.flatMap fun c => (String.utf8EncodeChar c).map UInt8.toNat

/-- The scalar cases of `marshalSingular` of package `proto`: the bytes after
the tag for a value of a scalar kind.  A field holds a value of the Go type of
its kind (the type check of `Set` and `Append`); the accessor of the kind
panics on another one. -/
def proto.marshalScalar (k : Kind) (v : Value) : Result (List Nat) :=
  match k with
  | .BoolKind => v.getBool.bind fun b => .ret (protowire.AppendVarint (if b then 1 else 0))
  | .EnumKind => v.getEnum.bind fun n => .ret (protowire.AppendVarint (toUint64 n))
  | .Int32Kind => v.getInt.bind fun n => .ret (protowire.AppendVarint (toUint64 (toInt32 n)))
  | .Sint32Kind =>
    v.getInt.bind fun n => .ret (protowire.AppendVarint (protowire.EncodeZigZag (toInt32 n)))
  | .Uint32Kind => v.getUint.bind fun n => .ret (protowire.AppendVarint (n % 2 ^ 32))
  | .Int64Kind => v.getInt.bind fun n => .ret (protowire.AppendVarint (toUint64 n))
  | .Sint64Kind => v.getInt.bind fun n => .ret (protowire.AppendVarint (protowire.EncodeZigZag n))
  | .Uint64Kind => v.getUint.bind fun n => .ret (protowire.AppendVarint n)
  | .Sfixed32Kind => v.getInt.bind fun n => .ret (protowire.AppendFixed32 (toUint64 n % 2 ^ 32))
  | .Fixed32Kind => v.getUint.bind fun n => .ret (protowire.AppendFixed32 (n % 2 ^ 32))
  | .FloatKind =>
    match v with
    | .float32 bits => .ret (protowire.AppendFixed32 bits)
    | _ => .panic
  | .Sfixed64Kind => v.getInt.bind fun n => .ret (protowire.AppendFixed64 (toUint64 n))
  | .Fixed64Kind => v.getUint.bind fun n => .ret (protowire.AppendFixed64 (n % 2 ^ 64))
  | .DoubleKind =>
    match v with
    | .float64 bits => .ret (protowire.AppendFixed64 bits)
    | _ => .panic
  | .StringKind =>
    match v with
    | .string s => .ret (protowire.AppendVarint (utf8Bytes s).length ++ utf8Bytes s)
    | _ => .panic
  | .BytesKind => v.getBytes.bind fun b => .ret (protowire.AppendVarint b.length ++ b)
  | .MessageKind => .panic
  | .GroupKind => .panic

/-- `md.Fields().ByNumber(num)`: the field of the message type with the number
`num`, `none` for the nil descriptor. -/
def ByNumber (md : MessageDescriptor) (num : Nat) : Option FieldDescriptor :=
  md.Fields.find? (fun fd => fd.Number == num)

/-- The order in which the fields of a dynamic message are written: `Range`
iterates over a Go map, so that the records of the populated fields come out in
some order, which a run picks. -/
abbrev FieldOrder := List (List Nat) → List (List Nat)

/-- A field order only rearranges the records. -/
def FieldOrder.Permutes (order : FieldOrder) : Prop :=
  ∀ records, (order records).Perm records

/-- What `marshalSingular` of package `proto` makes of the bytes `b` of a nested
message: a field of kind message writes the length in front, a group the end tag
behind; for a field of another kind the accessor of that kind has panicked on
the message. -/
def proto.frameMessage (fd : FieldDescriptor) (b : List Nat) : Result (List Nat) :=
  match fd.Kind with
  | .MessageKind => .ret (protowire.AppendVarint b.length ++ b)
  | .GroupKind => .ret (b ++ protowire.AppendTag fd.Number 4)
  | _ => .panic

mutual
/-- `marshalSingular` of package `proto`: the bytes after the tag. -/
def proto.marshalSingular (order : FieldOrder) (fd : FieldDescriptor) :
    Value → Result (List Nat)
  | .message m => (proto.marshalMessage order m).bind (proto.frameMessage fd)
  | v => proto.marshalScalar fd.Kind v
termination_by structural v => v
/-- `marshalMessage` of package `proto`.  A dynamic message goes the slow way:
the records of its populated fields in the order of the run.  The generated
timestamp message writes its fields by ascending number. -/
def proto.marshalMessage (order : FieldOrder) : Message → Result (List Nat)
  | .mk d known =>
    (proto.marshalFields order d known).bind fun records =>
      .ret (if d.FullName = "google.protobuf.Timestamp" then records.flatten
        else (order records).flatten)
termination_by structural m => m
/-- The records of the stored fields that `Range` reports, in the order of the
store: `Range` looks the descriptor up by number and skips what `isSet` denies. -/
def proto.marshalFields (order : FieldOrder) (d : MessageDescriptor) :
    List (Nat × Value) → Result (List (List Nat))
  | [] => .ret []
  | (num, v) :: rest =>
    match ByNumber d num with
    | none => .panic
    | some fd =>
      (isSet fd v).bind fun set =>
        (if set then
          (proto.marshalField order fd v).bind fun record => .ret [record]
        else .ret []).bind fun here =>
          (proto.marshalFields order d rest).bind fun there => .ret (here ++ there)
termination_by structural known => known
/-- `marshalField` of package `proto`: a list goes through `marshalList` and is
written packed, one record, or element by element, each with the tag; a map is
not a value of the model; any other field is its tag and what
`marshalSingular` gives. -/
def proto.marshalField (order : FieldOrder) (fd : FieldDescriptor) :
    Value → Result (List Nat)
  | .list elems =>
    if fd.IsList then
      (proto.marshalList order fd elems).bind fun payloads =>
        if fd.IsPacked && 0 < elems.length then
          .ret (protowire.AppendTag fd.Number 2
            ++ protowire.AppendVarint payloads.flatten.length ++ payloads.flatten)
        else
          .ret (payloads.flatMap fun p => protowire.AppendTag fd.Number (wireTypes fd.Kind) ++ p)
    else .panic
  | .message m =>
    if fd.IsList then .panic
    else if fd.IsMap then .panic
    else
      (proto.marshalMessage order m).bind fun b =>
        (proto.frameMessage fd b).bind fun p =>
          .ret (protowire.AppendTag fd.Number (wireTypes fd.Kind) ++ p)
  | v =>
    if fd.IsList then .panic
    else if fd.IsMap then .panic
    else
      (proto.marshalScalar fd.Kind v).bind fun p =>
        .ret (protowire.AppendTag fd.Number (wireTypes fd.Kind) ++ p)
termination_by structural v => v
/-- The elements of a list through `marshalSingular`, in the order of the list. -/
def proto.marshalList (order : FieldOrder) (fd : FieldDescriptor) :
    List Value → Result (List (List Nat))
  | [] => .ret []
  | v :: rest =>
    (proto.marshalSingular order fd v).bind fun p =>
      (proto.marshalList order fd rest).bind fun ps => .ret (p :: ps)
termination_by structural elems => elems
end

/-- `proto.Marshal(m)`.  Its errors, text that is not UTF-8 and an unset required
field, do not arise: a Lean text is valid, and an instance the program built
holds every field that could be required. -/
def proto.Marshal (order : FieldOrder) (m : Message) : Result (List Nat) :=
  proto.marshalMessage order m

/-- `writeMessage` (main.go 46-54): the bytes of `proto.Marshal` are written to
the writer, whose content is `out`; the result is the content afterwards. -/
def writeMessage (order : FieldOrder) (m : Message) (out : List Nat) : Result (List Nat) :=
  (proto.Marshal order m).bind fun data => .ret (out ++ data)

/-- The field order that keeps the order of the store. -/
def storeOrder : FieldOrder := fun records => records

/-- The field order that turns the order of the store around. -/
def reverseOrder : FieldOrder := fun records => records.reverse

/-! ## Basic facts about outcomes -/

@[simp] theorem Result.ret_bind {α β : Type} (a : α) (f : α → Result β) :
    (Result.ret a).bind f = f a := rfl

@[simp] theorem Result.panic_bind {α β : Type} (f : α → Result β) :
    (Result.panic : Result α).bind f = .panic := rfl

@[simp] theorem Result.outOfFuel_bind {α β : Type} (f : α → Result β) :
    (Result.outOfFuel : Result α).bind f = .outOfFuel := rfl

theorem Result.bind_eq_ret {α β : Type} {r : Result α} {f : α → Result β} {b : β} :
    r.bind f = .ret b ↔ ∃ a, r = .ret a ∧ f a = .ret b := by
  cases r <;> simp [Result.bind]

/-! ## The stored fields of a message -/

@[simp] theorem Message.known_mk (d : MessageDescriptor) (k : List (Nat × Value)) :
    (Message.mk d k).known = k := rfl

@[simp] theorem Message.Descriptor_mk (d : MessageDescriptor) (k : List (Nat × Value)) :
    (Message.mk d k).Descriptor = d := rfl

@[simp] theorem NewMessage_get? (md : MessageDescriptor) (n : Nat) :
    (NewMessage md).get? n = none := rfl

@[simp] theorem NewMessage_Descriptor (md : MessageDescriptor) :
    (NewMessage md).Descriptor = md := rfl

theorem lookup_cons_ne {n k : Nat} (h : n ≠ k) (v : Value) (es : List (Nat × Value)) :
    ((k, v) :: es).lookup n = es.lookup n := by
  have hb : (n == k) = false := by simpa using h
  simp [List.lookup_cons, hb]

theorem lookup_filter_of_pos (p : Nat × Value → Bool) (n : Nat) (hp : ∀ v, p (n, v) = true) :
    ∀ l : List (Nat × Value), (l.filter p).lookup n = l.lookup n := by
  intro l
  induction l with
  | nil => rfl
  | cons e rest ih =>
    obtain ⟨k, v⟩ := e
    by_cases hk : n = k
    · subst hk
      simp [List.filter_cons, hp]
    · by_cases hpk : p (k, v) = true
      · simp [List.filter_cons, hpk, lookup_cons_ne hk, ih]
      · simp [List.filter_cons, hpk, lookup_cons_ne hk, ih]

theorem lookup_filter_of_neg (p : Nat × Value → Bool) (n : Nat) (hp : ∀ v, p (n, v) = false) :
    ∀ l : List (Nat × Value), (l.filter p).lookup n = none := by
  intro l
  simp only [List.lookup_eq_none_iff, List.mem_filter]
  rintro ⟨k, v⟩ ⟨_, hpe⟩
  simp only [bne_iff_ne, ne_eq]
  intro hk
  subst hk
  rw [hp] at hpe
  cases hpe

theorem Message.get?_store (m : Message) (k : Nat) (v : Value) (n : Nat) :
    (m.store k v).get? n = if n = k then some v else m.get? n := by
  simp only [Message.get?, Message.store, Message.known_mk, List.lookup_append]
  by_cases h : n = k
  · subst h
    rw [lookup_filter_of_neg _ n (by intro v; simp)]
    simp
  · rw [lookup_filter_of_pos _ n (by intro v; simpa using h)]
    simp [lookup_cons_ne h, h]

@[simp] theorem Message.Descriptor_store (m : Message) (k : Nat) (v : Value) :
    (m.store k v).Descriptor = m.Descriptor := rfl

@[simp] theorem clearOtherOneofFields_Descriptor (m : Message) (fd : FieldDescriptor) :
    (clearOtherOneofFields m fd).Descriptor = m.Descriptor := rfl

theorem clearOtherOneofFields_get? (m : Message) (fd : FieldDescriptor) (n : Nat) :
    (clearOtherOneofFields m fd).get? n
      = if n ∈ otherOneofFields m.Descriptor fd then none else m.get? n := by
  simp only [Message.get?, clearOtherOneofFields, Message.known_mk]
  by_cases h : n ∈ otherOneofFields m.Descriptor fd
  · rw [lookup_filter_of_neg _ n (by intro v; simpa using h)]
    simp [h]
  · rw [lookup_filter_of_pos _ n (by intro v; simpa using h)]
    simp [h]

theorem mem_otherOneofFields {md : MessageDescriptor} {fd : FieldDescriptor} {n : Nat} :
    n ∈ otherOneofFields md fd ↔
      ∃ g ∈ md.Fields, sharesOneof fd g = true ∧ g.Number ≠ fd.Number ∧ g.Number = n := by
  unfold otherOneofFields sharesOneof
  cases hod : fd.ContainingOneof with
  | none => simp
  | some od =>
    simp only [List.mem_map, List.mem_filter, Bool.and_eq_true, beq_iff_eq, bne_iff_ne, ne_eq,
      Option.isSome_some, true_and]
    constructor
    · rintro ⟨g, ⟨hg, ho, hn⟩, rfl⟩
      exact ⟨g, hg, ho.symm, hn, rfl⟩
    · rintro ⟨g, hg, ho, hn, rfl⟩
      exact ⟨g, ⟨hg, ho.symm, hn⟩, rfl⟩

/-! ## The effect of one field and of the loop -/

theorem Result.bind_assoc {α β γ : Type} (r : Result α) (f : α → Result β) (g : β → Result γ) :
    (r.bind f).bind g = r.bind (fun a => (f a).bind g) := by
  cases r <;> rfl

theorem Message.Set_ret {P : Pool} {m : Message} {fd : FieldDescriptor} {v : Value} {m1 : Message}
    (h : m.Set P fd v = .ret m1) :
    typeIsValid P fd v = true ∧ m1 = (clearOtherOneofFields m fd).store fd.Number v := by
  unfold Message.Set at h
  split at h
  · rename_i hv
    simp only [Result.ret.injEq] at h
    exact ⟨hv, h.symm⟩
  · cases h

theorem Message.ListAt_ret {m : Message} {fd : FieldDescriptor} {elems : List Value}
    (h : m.ListAt fd = .ret elems) : m.get? fd.Number = some (.list elems) := by
  unfold Message.ListAt at h
  split at h
  · rename_i es hg
    simp only [Result.ret.injEq] at h
    rw [hg, h]
  · cases h

theorem Message.Append_ret {P : Pool} {m : Message} {fd : FieldDescriptor} {elems : List Value}
    {v : Value} {m1 : Message} (h : m.Append P fd elems v = .ret m1) :
    singularTypeIsValid P fd v = true ∧ m1 = m.store fd.Number (.list (elems ++ [v])) := by
  unfold Message.Append at h
  split at h
  · rename_i hv
    simp only [Result.ret.injEq] at h
    exact ⟨hv, h.symm⟩
  · cases h

/-- What a returning call of the closure of `SetRandomValueFun` did: it got one
value from `GenerateRandomValue` and handed it to `Append` or to `Set`. -/
theorem SetRandomValueFun_ret {P : Pool}
    {gen : MessageDescriptor → World → Result (Message × World)} {fd : FieldDescriptor}
    {m : Message} {w : World} {b : Bool} {m1 : Message} {w1 : World}
    (h : SetRandomValueFun P gen fd (m, w) = .ret (b, m1, w1)) :
    ∃ v, GenerateRandomValue P gen fd w = .ret (v, w1) ∧
      (if fd.IsList then
        ∃ elems, (m.Mutable fd).ListAt fd = .ret elems ∧
          (m.Mutable fd).Append P fd elems v = .ret m1
      else m.Set P fd v = .ret m1) := by
  unfold SetRandomValueFun at h
  split at h
  · rename_i hl
    obtain ⟨elems, hes, h1⟩ := Result.bind_eq_ret.1 h
    obtain ⟨⟨v, w2⟩, hv, h2⟩ := Result.bind_eq_ret.1 h1
    obtain ⟨m2, hm2, h3⟩ := Result.bind_eq_ret.1 h2
    simp only [Result.ret.injEq, Prod.mk.injEq] at h3
    obtain ⟨_, rfl, rfl⟩ := h3
    exact ⟨v, hv, by simpa [hl] using ⟨elems, hes, hm2⟩⟩
  · rename_i hl
    obtain ⟨⟨v, w2⟩, hv, h2⟩ := Result.bind_eq_ret.1 h
    obtain ⟨m2, hm2, h3⟩ := Result.bind_eq_ret.1 h2
    simp only [Result.ret.injEq, Prod.mk.injEq] at h3
    obtain ⟨_, rfl, rfl⟩ := h3
    exact ⟨v, hv, by simpa [hl] using hm2⟩

/-- The effect of one returning call of the closure on the message: the
descriptor stays; a field that held nothing holds the generated value, or the
list of that one value; other numbers keep what they held unless the oneof of
the field clears them, and hold nothing if they held nothing. -/
theorem SetRandomValueFun_effect {P : Pool}
    {gen : MessageDescriptor → World → Result (Message × World)} {fd : FieldDescriptor}
    {m : Message} {w : World} {b : Bool} {m1 : Message} {w1 : World}
    (h : SetRandomValueFun P gen fd (m, w) = .ret (b, m1, w1)) :
    m1.Descriptor = m.Descriptor ∧
    (∃ v, GenerateRandomValue P gen fd w = .ret (v, w1) ∧
      (m.get? fd.Number = none →
        m1.get? fd.Number = some (if fd.IsList then .list [v] else v))) ∧
    (∀ n, n ≠ fd.Number → n ∉ otherOneofFields m.Descriptor fd → m1.get? n = m.get? n) ∧
    (∀ n, n ≠ fd.Number → m.get? n = none → m1.get? n = none) := by
  obtain ⟨v, hv, hstore⟩ := SetRandomValueFun_ret h
  by_cases hl : fd.IsList = true
  · simp only [hl, if_true] at hstore
    obtain ⟨elems, hes, happ⟩ := hstore
    have hg := Message.ListAt_ret hes
    obtain ⟨_, rfl⟩ := Message.Append_ret happ
    cases hm : m.get? fd.Number with
    | none =>
      have hmut : m.Mutable fd = (clearOtherOneofFields m fd).store fd.Number (.list []) := by
        simp [Message.Mutable, hm]
      rw [hmut, Message.get?_store] at hg
      simp only [if_true, Option.some.injEq, Value.list.injEq] at hg
      subst hg
      rw [hmut]
      refine ⟨rfl, ⟨v, hv, fun _ => ?_⟩, ?_, ?_⟩
      · simp [Message.get?_store, hl]
      · intro n hn hno
        simp [Message.get?_store, hn, clearOtherOneofFields_get?, hno]
      · intro n hn hnone
        simp [Message.get?_store, hn, clearOtherOneofFields_get?, hnone]
    | some x =>
      have hmut : m.Mutable fd = m := by simp [Message.Mutable, hm]
      rw [hmut]
      refine ⟨rfl, ⟨v, hv, fun hc => ?_⟩, ?_, ?_⟩
      · cases hc
      · intro n hn _
        simp [Message.get?_store, hn]
      · intro n hn hnone
        simp [Message.get?_store, hn, hnone]
  · simp only [hl] at hstore
    obtain ⟨_, rfl⟩ := Message.Set_ret hstore
    refine ⟨rfl, ⟨v, hv, fun _ => ?_⟩, ?_, ?_⟩
    · simp [Message.get?_store, hl]
    · intro n hn hno
      simp [Message.get?_store, hn, clearOtherOneofFields_get?, hno]
    · intro n hn hnone
      simp [Message.get?_store, hn, clearOtherOneofFields_get?, hnone]

theorem RangeFields.loop_append {σ : Type} (fun_ : FieldDescriptor → σ → Result (Bool × σ))
    (pre post : List FieldDescriptor) (s : σ) :
    RangeFields.loop fun_ (pre ++ post) s
      = (RangeFields.loop fun_ pre s).bind (fun s1 => RangeFields.loop fun_ post s1) := by
  induction pre generalizing s with
  | nil => rfl
  | cons g rest ih =>
    simp only [List.cons_append, RangeFields.loop, Result.bind_assoc]
    congr 1
    funext a
    exact ih a.2

/-- The effect of a returning run of the loop over `fs`: the descriptor stays, a
number that no field of `fs` has and that held nothing holds nothing, and a
number that no field of `fs` has or clears keeps what it held. -/
theorem RangeFields.loop_frame (P : Pool)
    (gen : MessageDescriptor → World → Result (Message × World)) (md : MessageDescriptor) :
    ∀ (fs : List FieldDescriptor) (m : Message) (w : World) (m1 : Message) (w1 : World),
      RangeFields.loop (SetRandomValueFun P gen) fs (m, w) = .ret (m1, w1) →
      m.Descriptor = md →
      m1.Descriptor = md ∧
      (∀ n, (∀ g ∈ fs, g.Number ≠ n) → m.get? n = none → m1.get? n = none) ∧
      (∀ n, (∀ g ∈ fs, g.Number ≠ n ∧ n ∉ otherOneofFields md g) → m1.get? n = m.get? n) := by
  intro fs
  induction fs with
  | nil =>
    intro m w m1 w1 h hd
    simp only [RangeFields.loop, Result.ret.injEq, Prod.mk.injEq] at h
    obtain ⟨rfl, rfl⟩ := h
    exact ⟨hd, fun _ _ h => h, fun _ _ => rfl⟩
  | cons g rest ih =>
    intro m w m1 w1 h hd
    simp only [RangeFields.loop] at h
    obtain ⟨⟨b, m2, w2⟩, hstep, hrest⟩ := Result.bind_eq_ret.1 h
    obtain ⟨hd2, _, hkeep, hnone⟩ := SetRandomValueFun_effect hstep
    obtain ⟨hd1, ihnone, ihkeep⟩ := ih m2 w2 m1 w1 hrest (hd2.trans hd)
    refine ⟨hd1, ?_, ?_⟩
    · intro n hn hm
      exact ihnone n (fun g1 hg1 => hn g1 (List.mem_cons_of_mem _ hg1))
        (hnone n (fun e => hn g (List.mem_cons_self _ _) e.symm) hm)
    · intro n hn
      rw [ihkeep n (fun g1 hg1 => hn g1 (List.mem_cons_of_mem _ hg1))]
      have hg := hn g (List.mem_cons_self _ _)
      exact hkeep n (fun e => hg.1 e.symm) (by rw [hd]; exact hg.2)

theorem declaredAfter_append (pre post : List FieldDescriptor) (fd : FieldDescriptor)
    (h : fd ∉ pre) : declaredAfter (pre ++ fd :: post) fd = post := by
  induction pre with
  | nil => simp [declaredAfter]
  | cons g rest ih =>
    have hg : g ≠ fd := fun e => h (e ▸ List.mem_cons_self _ _)
    simp only [List.cons_append, declaredAfter, hg, if_false]
    exact ih (fun hm => h (List.mem_cons_of_mem _ hm))

/-- What a returned instance holds under a declared field: the value that
`GenerateRandomValue` returned for the field when `RangeFields` reached it, or
the list of that one value.  It holds for a message type other than the
timestamp type whose field numbers are distinct, and for a field that no field
declared later shares a oneof with. -/
theorem GenerateRandomMessage_field (P : Pool) (fuel : Nat) (md : MessageDescriptor)
    (w : World) (m : Message) (w1 : World)
    (hts : md.FullName ≠ "google.protobuf.Timestamp") (hu : UniqueNumbers md)
    (hret : GenerateRandomMessage P (fuel + 1) md w = .ret (m, w1))
    (fd : FieldDescriptor) (hfd : fd ∈ md.Fields) (hlast : KeptToEnd md fd) :
    ∃ v w2 w3, GenerateRandomValue P (GenerateRandomMessage P fuel) fd w2 = .ret (v, w3) ∧
      m.get? fd.Number = some (if fd.IsList then .list [v] else v) := by
  obtain ⟨pre, post, hsplit⟩ := List.append_of_mem hfd
  have hinj := List.inj_on_of_nodup_map hu
  have hu1 : (List.map (fun g : FieldDescriptor => g.Number) pre
      ++ fd.Number :: List.map (fun g : FieldDescriptor => g.Number) post).Nodup := by
    have := hu
    unfold UniqueNumbers at this
    rwa [hsplit, List.map_append, List.map_cons] at this
  have hpre : ∀ g ∈ pre, g.Number ≠ fd.Number := by
    intro g hg e
    have hdis := (List.nodup_append.1 hu1).2.2
    exact hdis (List.mem_map_of_mem _ hg) (e ▸ List.mem_cons_self _ _)
  have hpost : ∀ g ∈ post, g.Number ≠ fd.Number := by
    intro g hg e
    have hnd := (List.nodup_cons.1 (List.nodup_append.1 hu1).2.1).1
    exact hnd (e ▸ List.mem_map_of_mem _ hg)
  have hnotpre : fd ∉ pre := fun hm => hpre fd hm rfl
  have hclear : ∀ g ∈ post, fd.Number ∉ otherOneofFields md g := by
    intro g hg hmem
    obtain ⟨f1, hf1, hshare, _, hnum⟩ := mem_otherOneofFields.1 hmem
    have hf : f1 = fd := hinj hf1 hfd hnum
    subst hf
    have hk := hlast g (by rw [hsplit, declaredAfter_append pre post f1 hnotpre]; exact hg)
    rw [hk] at hshare
    cases hshare
  simp only [GenerateRandomMessage, hts, if_false, RangeFields] at hret
  rw [hsplit, RangeFields.loop_append] at hret
  obtain ⟨⟨m2, w2⟩, hrun1, hrun2⟩ := Result.bind_eq_ret.1 hret
  simp only [RangeFields.loop] at hrun2
  obtain ⟨⟨b, m3, w3⟩, hstep, hrun3⟩ := Result.bind_eq_ret.1 hrun2
  obtain ⟨hd2, hnone2, _⟩ :=
    RangeFields.loop_frame P _ md pre _ _ m2 w2 hrun1 (NewMessage_Descriptor md)
  obtain ⟨hd3, ⟨v, hv, hset⟩, _, _⟩ := SetRandomValueFun_effect hstep
  obtain ⟨_, _, hkeep⟩ :=
    RangeFields.loop_frame P _ md post m3 w3 m w1 hrun3 (hd3.trans hd2)
  refine ⟨v, w2, w3, hv, ?_⟩
  rw [hkeep fd.Number (fun g hg => ⟨hpost g hg, hclear g hg⟩)]
  exact hset (hnone2 fd.Number hpre (NewMessage_get? md _))

theorem KeptToEnd_of_not_oneof (md : MessageDescriptor) (fd : FieldDescriptor)
    (h : fd.ContainingOneof = none) : KeptToEnd md fd := by
  intro g _
  unfold sharesOneof
  rw [h]
  cases g.ContainingOneof <;> rfl

theorem personDescriptor_wellFormed : WellFormed personDescriptor := by
  constructor
  · simp [UniqueNumbers, personDescriptor, scalarField, messageField]
  · intro fd hfd _
    simp only [personDescriptor, List.mem_cons, List.mem_singleton, List.not_mem_nil,
      or_false] at hfd
    rcases hfd with h | h | h | h <;> rw [h] <;> rfl

theorem paintDescriptor_wellFormed : WellFormed paintDescriptor := by
  constructor
  · simp [UniqueNumbers, paintDescriptor, colorField, scalarField]
  · intro fd hfd _
    simp only [paintDescriptor, List.mem_cons, List.mem_singleton, List.not_mem_nil,
      or_false] at hfd
    rcases hfd with h | h <;> rw [h] <;> rfl

/-! ## Recursion without a guard -/

/-- A nested-message field whose recursive call does not return stops `SetRandomValueFun`
from returning. -/
theorem SetRandomValueFun_ne_ret (P : Pool)
    (gen : MessageDescriptor → World → Result (Message × World))
    (fd : FieldDescriptor) (r : MessageRef) (hk : fd.Kind = .MessageKind)
    (hm : fd.Message = some r) (hgen : ∀ w x, gen (P r) w ≠ .ret x)
    (s : Message × World) (y : Bool × Message × World) :
    SetRandomValueFun P gen fd s ≠ .ret y := by
  have hv : ∀ x, GenerateRandomValue P gen fd s.2 ≠ .ret x := by
    intro x hx
    simp only [GenerateRandomValue, hk, hm, Result.bind_eq_ret] at hx
    obtain ⟨a, ha, _⟩ := hx
    exact hgen _ _ ha
  intro hy
  unfold SetRandomValueFun at hy
  split at hy
  · obtain ⟨_, _, hy1⟩ := Result.bind_eq_ret.1 hy
    obtain ⟨a, ha, _⟩ := Result.bind_eq_ret.1 hy1
    exact hv _ ha
  · obtain ⟨a, ha, _⟩ := Result.bind_eq_ret.1 hy
    exact hv _ ha

/-- The loop of `RangeFields` returns only if the function returned on every field. -/
theorem RangeFields.loop_ne_ret {σ : Type} (fun_ : FieldDescriptor → σ → Result (Bool × σ))
    (fd : FieldDescriptor) (hfd : ∀ s y, fun_ fd s ≠ .ret y) :
    ∀ (fs : List FieldDescriptor), fd ∈ fs → ∀ s t, RangeFields.loop fun_ fs s ≠ .ret t := by
  intro fs
  induction fs with
  | nil => intro h; cases h
  | cons g rest ih =>
    intro hmem s t hret
    simp only [RangeFields.loop, Result.bind_eq_ret] at hret
    obtain ⟨a, ha, hrest⟩ := hret
    rcases List.mem_cons.1 hmem with h | h
    · subst h; exact hfd _ _ ha
    · exact ih h _ _ hrest

/-- A descriptor that expands into one on which no call returns is one on which
no call returns. -/
theorem GenerateRandomMessage_ne_ret_of_expands (P : Pool) (fuel : Nat)
    (a b : MessageDescriptor) (hab : Expands P a b)
    (hb : ∀ w x, GenerateRandomMessage P fuel b w ≠ .ret x) (w : World) (x : Message × World) :
    GenerateRandomMessage P (fuel + 1) a w ≠ .ret x := by
  obtain ⟨hts, fd, hmem, hk, r, hm, hr⟩ := hab
  subst hr
  simp only [GenerateRandomMessage, hts, if_false, RangeFields]
  exact RangeFields.loop_ne_ret _ fd
    (SetRandomValueFun_ne_ret P _ fd r hk hm hb) _ hmem _ _

/-- On a cycle of expansions no call returns, whatever the depth bound. -/
theorem GenerateRandomMessage_cycle_ne_ret (P : Pool) (md : MessageDescriptor)
    (hcyc : Relation.TransGen (Expands P) md md) :
    ∀ (fuel : Nat) (d : MessageDescriptor), Relation.TransGen (Expands P) d md →
      ∀ w x, GenerateRandomMessage P fuel d w ≠ .ret x := by
  intro fuel
  induction fuel with
  | zero => intro d _ w x h; simp [GenerateRandomMessage] at h
  | succ n ih =>
    intro d hd w x
    obtain ⟨b, hdb, hbm⟩ := Relation.TransGen.head'_iff.1 hd
    have hb : Relation.TransGen (Expands P) b md := by
      rcases Relation.reflTransGen_iff_eq_or_transGen.1 hbm with h | h
      · rw [← h]; exact hcyc
      · exact h
    exact GenerateRandomMessage_ne_ret_of_expands P n d b hdb (ih b hb) w x

/-- On `Node` every depth bound is exceeded. -/
theorem node_outOfFuel : ∀ (fuel : Nat) (w : World),
    GenerateRandomMessage nodePool fuel nodeDescriptor w = .outOfFuel := by
  intro fuel
  induction fuel with
  | zero => intro w; rfl
  | succ n ih =>
    intro w
    have hrec := ih (w.Fprintln "Node")
    simp only [nodeDescriptor, scalarField, messageField] at hrec
    simp [GenerateRandomMessage, nodeDescriptor, RangeFields, RangeFields.loop,
      SetRandomValueFun, GenerateRandomValue, scalarField, messageField, NewMessage,
      Message.Set, typeIsValid, singularTypeIsValid, nodePool, Message.ListAt, Message.Mutable,
      Message.get?, Message.store, clearOtherOneofFields, otherOneofFields, List.lookup, hrec]

/-! ## Dependence on the world and on the depth bound -/

theorem GenerateRandomValue_simulates (P : Pool) (R : World → World → Prop)
    (gen gen1 : MessageDescriptor → World → Result (Message × World)) (fd : FieldDescriptor)
    (hgen : ∀ r, fd.Kind = .MessageKind → fd.Message = some r → Simulates R gen gen1 (P r))
    (w1 w2 : World) (v : Value) (w3 : World) (hR : R w1 w2)
    (h : GenerateRandomValue P gen fd w1 = .ret (v, w3)) :
    ∃ w4, GenerateRandomValue P gen1 fd w2 = .ret (v, w4) ∧ R w3 w4 := by
  unfold GenerateRandomValue at h ⊢
  cases hk : fd.Kind <;> simp only [hk] at h ⊢ <;>
    try (simp only [Result.ret.injEq, Prod.mk.injEq] at h
         obtain ⟨rfl, rfl⟩ := h
         exact ⟨w2, rfl, hR⟩)
  · cases he : fd.Enum with
    | none => simp [he] at h
    | some e =>
      cases hv : e.Values with
      | nil => simp [he, hv] at h
      | cons v0 rest =>
        simp only [he, hv, Result.ret.injEq, Prod.mk.injEq] at h ⊢
        obtain ⟨rfl, rfl⟩ := h
        exact ⟨w2, ⟨rfl, rfl⟩, hR⟩
  · cases hm : fd.Message with
    | none => simp [hm] at h
    | some r =>
      simp only [hm, Result.bind_eq_ret] at h ⊢
      obtain ⟨⟨n, w5⟩, hn, hv⟩ := h
      simp only [Result.ret.injEq, Prod.mk.injEq] at hv
      obtain ⟨rfl, rfl⟩ := hv
      obtain ⟨w4, h4, hR4⟩ := hgen r hk hm w1 w2 n w5 hR hn
      exact ⟨w4, ⟨(n, w4), h4, rfl⟩, hR4⟩

theorem SetRandomValueFun_simulates (P : Pool) (R : World → World → Prop)
    (gen gen1 : MessageDescriptor → World → Result (Message × World)) (fd : FieldDescriptor)
    (hgen : ∀ r, fd.Kind = .MessageKind → fd.Message = some r → Simulates R gen gen1 (P r))
    (m : Message) (w1 w2 : World) (b : Bool) (m1 : Message) (w3 : World) (hR : R w1 w2)
    (h : SetRandomValueFun P gen fd (m, w1) = .ret (b, m1, w3)) :
    ∃ w4, SetRandomValueFun P gen1 fd (m, w2) = .ret (b, m1, w4) ∧ R w3 w4 := by
  unfold SetRandomValueFun at h ⊢
  by_cases hl : fd.IsList = true
  · simp only [hl, if_true] at h ⊢
    obtain ⟨elems, hes, h1⟩ := Result.bind_eq_ret.1 h
    obtain ⟨⟨v, w5⟩, hv, h2⟩ := Result.bind_eq_ret.1 h1
    obtain ⟨m2, hm2, h3⟩ := Result.bind_eq_ret.1 h2
    simp only [Result.ret.injEq, Prod.mk.injEq] at h3
    obtain ⟨rfl, rfl, rfl⟩ := h3
    obtain ⟨w4, h4, hR4⟩ := GenerateRandomValue_simulates P R gen gen1 fd hgen w1 w2 v w5 hR hv
    exact ⟨w4, by simp [hes, h4, hm2], hR4⟩
  · simp only [hl] at h ⊢
    obtain ⟨⟨v, w5⟩, hv, h2⟩ := Result.bind_eq_ret.1 h
    obtain ⟨m2, hm2, h3⟩ := Result.bind_eq_ret.1 h2
    simp only [Result.ret.injEq, Prod.mk.injEq] at h3
    obtain ⟨rfl, rfl, rfl⟩ := h3
    obtain ⟨w4, h4, hR4⟩ := GenerateRandomValue_simulates P R gen gen1 fd hgen w1 w2 v w5 hR hv
    exact ⟨w4, by simp [h4, hm2], hR4⟩

theorem RangeFields.loop_simulates (P : Pool) (R : World → World → Prop)
    (gen gen1 : MessageDescriptor → World → Result (Message × World)) :
    ∀ (fs : List FieldDescriptor),
      (∀ fd ∈ fs, ∀ r, fd.Kind = .MessageKind → fd.Message = some r →
        Simulates R gen gen1 (P r)) →
      ∀ (m : Message) (w1 w2 : World) (m1 : Message) (w3 : World), R w1 w2 →
        RangeFields.loop (SetRandomValueFun P gen) fs (m, w1) = .ret (m1, w3) →
        ∃ w4, RangeFields.loop (SetRandomValueFun P gen1) fs (m, w2) = .ret (m1, w4) ∧ R w3 w4 := by
  intro fs
  induction fs with
  | nil =>
    intro _ m w1 w2 m1 w3 hR h
    simp only [RangeFields.loop, Result.ret.injEq, Prod.mk.injEq] at h ⊢
    obtain ⟨rfl, rfl⟩ := h
    exact ⟨w2, ⟨rfl, rfl⟩, hR⟩
  | cons g rest ih =>
    intro hgen m w1 w2 m1 w3 hR h
    simp only [RangeFields.loop] at h ⊢
    obtain ⟨⟨b, m2, w5⟩, hstep, hrest⟩ := Result.bind_eq_ret.1 h
    obtain ⟨w6, h6, hR6⟩ := SetRandomValueFun_simulates P R gen gen1 g
      (hgen g (List.mem_cons_self _ _)) m w1 w2 b m2 w5 hR hstep
    obtain ⟨w4, h4, hR4⟩ := ih (fun fd hfd => hgen fd (List.mem_cons_of_mem _ hfd))
      m2 w5 w6 m1 w3 hR6 hrest
    exact ⟨w4, by simp [h6, h4], hR4⟩

theorem GenerateRandomMessage_succ (P : Pool) (fuel : Nat) (md : MessageDescriptor) (w : World) :
    GenerateRandomMessage P (fuel + 1) md w =
      if md.FullName = "google.protobuf.Timestamp" then
        .ret (timestamppbNew (w.Fprintln md.Name).Now.1, (w.Fprintln md.Name).Now.2)
      else
        RangeFields md (SetRandomValueFun P (GenerateRandomMessage P fuel))
          (NewMessage md, w.Fprintln md.Name) := rfl

/-- A larger depth bound changes nothing in a call that returned. -/
theorem GenerateRandomMessage_fuel_succ (P : Pool) :
    ∀ (fuel : Nat) (md : MessageDescriptor) (w : World) (x : Message × World),
      GenerateRandomMessage P fuel md w = .ret x →
      GenerateRandomMessage P (fuel + 1) md w = .ret x := by
  intro fuel
  induction fuel with
  | zero => intro md w x h; simp [GenerateRandomMessage] at h
  | succ n ih =>
    intro md w x h
    by_cases hts : md.FullName = "google.protobuf.Timestamp"
    · simp only [GenerateRandomMessage, hts, if_true] at h ⊢
      exact h
    · rw [GenerateRandomMessage_succ] at h ⊢
      simp only [hts, if_false, RangeFields] at h ⊢
      obtain ⟨m, w3⟩ := x
      have hsim : ∀ fd ∈ md.Fields, ∀ r, fd.Kind = .MessageKind → fd.Message = some r →
          Simulates Eq (GenerateRandomMessage P n) (GenerateRandomMessage P (n + 1)) (P r) := by
        intro fd _ r _ _ w1 w2 m2 w4 hw hret
        subst hw
        exact ⟨w4, ih _ _ _ hret, rfl⟩
      obtain ⟨w4, h4, hw⟩ := RangeFields.loop_simulates P Eq _ _ md.Fields hsim _ _ _ m w3 rfl h
      rw [h4, hw]

theorem GenerateRandomMessage_fuel_le (P : Pool) (md : MessageDescriptor) (w : World)
    (x : Message × World) (f1 f2 : Nat) (hle : f1 ≤ f2)
    (h : GenerateRandomMessage P f1 md w = .ret x) :
    GenerateRandomMessage P f2 md w = .ret x := by
  induction hle with
  | refl => exact h
  | step _ ih => exact GenerateRandomMessage_fuel_succ P _ md w x ih

/-- Away from the timestamp type the returned instance does not depend on the world. -/
theorem GenerateRandomMessage_any_world (P : Pool) :
    ∀ (fuel : Nat) (md : MessageDescriptor), TimestampFree P md →
      Simulates (fun _ _ => True) (GenerateRandomMessage P fuel) (GenerateRandomMessage P fuel)
        md := by
  intro fuel
  induction fuel with
  | zero => intro md _ w1 w2 m w3 _ h; simp [GenerateRandomMessage] at h
  | succ n ih =>
    intro md hfree w1 w2 m w3 _ h
    have hts : md.FullName ≠ "google.protobuf.Timestamp" := hfree md Relation.ReflTransGen.refl
    simp only [GenerateRandomMessage, hts, if_false, RangeFields] at h ⊢
    have hsim : ∀ fd ∈ md.Fields, ∀ r, fd.Kind = .MessageKind → fd.Message = some r →
        Simulates (fun _ _ => True) (GenerateRandomMessage P n) (GenerateRandomMessage P n)
          (P r) := by
      intro fd hfd r hk hm
      apply ih
      intro d hd
      exact hfree d (Relation.ReflTransGen.head ⟨hts, fd, hfd, hk, r, hm, rfl⟩ hd)
    exact RangeFields.loop_simulates P _ _ _ md.Fields hsim _ _ _ m w3 trivial h

theorem personDescriptor_timestampFree : TimestampFree personPool personDescriptor := by
  intro d hd
  have key : d = personDescriptor ∨ d = addressDescriptor := by
    induction hd with
    | refl => exact Or.inl rfl
    | tail _ hstep ih =>
      obtain ⟨_, fd, hfd, hk, r, hm, hr⟩ := hstep
      rcases ih with h | h
      · subst h
        simp only [personDescriptor, List.mem_cons, List.mem_singleton, List.not_mem_nil,
          or_false] at hfd
        rcases hfd with h | h | h | h
        · subst h; cases hk
        · subst h; cases hk
        · subst h; cases hk
        · subst h
          simp only [messageField, Option.some.injEq] at hm
          subst hm
          exact Or.inr hr.symm
      · subst h
        simp only [addressDescriptor, List.mem_cons, List.mem_singleton, List.not_mem_nil,
          or_false] at hfd
        subst hfd
        cases hk
  rcases key with h | h <;> subst h <;> decide

/-- A returned instance carries the full name of the descriptor it was asked for. -/
theorem GenerateRandomMessage_FullName (P : Pool) (fuel : Nat) (md : MessageDescriptor)
    (w : World) (m : Message) (w1 : World)
    (h : GenerateRandomMessage P fuel md w = .ret (m, w1)) :
    m.Descriptor.FullName = md.FullName := by
  cases fuel with
  | zero => simp [GenerateRandomMessage] at h
  | succ n =>
    rw [GenerateRandomMessage_succ] at h
    by_cases hts : md.FullName = "google.protobuf.Timestamp"
    · simp only [hts, if_true, Result.ret.injEq, Prod.mk.injEq] at h
      rw [← h.1, hts]
      rfl
    · simp only [hts, if_false, RangeFields] at h
      rw [(RangeFields.loop_frame P _ md md.Fields _ _ m w1 h (NewMessage_Descriptor md)).1]

/-- For every kind but group, a value that `GenerateRandomValue` returns passes
the check for a single value of the field. -/
theorem GenerateRandomValue_valid (P : Pool) (fuel : Nat) (fd : FieldDescriptor) (w : World)
    (v : Value) (w1 : World) (hk : fd.Kind ≠ .GroupKind)
    (h : GenerateRandomValue P (GenerateRandomMessage P fuel) fd w = .ret (v, w1)) :
    singularTypeIsValid P fd v = true := by
  unfold GenerateRandomValue at h
  unfold singularTypeIsValid
  cases hkind : fd.Kind <;> simp only [hkind] at h hk ⊢ <;>
    try (simp only [Result.ret.injEq, Prod.mk.injEq] at h
         obtain ⟨rfl, rfl⟩ := h
         rfl)
  · cases he : fd.Enum with
    | none => simp [he] at h
    | some e =>
      cases hv : e.Values with
      | nil => simp [he, hv] at h
      | cons v0 rest =>
        simp only [he, hv, Result.ret.injEq, Prod.mk.injEq] at h
        obtain ⟨rfl, rfl⟩ := h
        rfl
  · cases hm : fd.Message with
    | none => simp [hm] at h
    | some r =>
      simp only [hm, Result.bind_eq_ret] at h
      obtain ⟨⟨n, w5⟩, hn, hv⟩ := h
      simp only [Result.ret.injEq, Prod.mk.injEq] at hv
      obtain ⟨rfl, rfl⟩ := hv
      simp [GenerateRandomMessage_FullName P fuel (P r) w n w5 hn]
  · exact absurd rfl hk

/-! ## Facts about the lookup -/

theorem containsChars_iff (s sub : List Char) : containsChars s sub = true ↔ sub <:+: s := by
  induction s with
  | nil => simp [containsChars]
  | cons c t ih =>
    simp only [containsChars, Bool.or_eq_true, List.isPrefixOf_iff_prefix, ih]
    exact List.infix_cons_iff.symm

theorem strings.Contains_iff (s substr : String) :
    strings.Contains s substr = true ↔ substr.data <:+: s.data :=
  containsChars_iff _ _

theorem lastSegment_of_no_dot (m : List Char) (h : '.' ∉ m) : lastSegment m = m := by
  unfold lastSegment
  rw [List.takeWhile_eq_self_iff.2, List.reverse_reverse]
  intro c hc
  have hne : c ≠ '.' := fun e => h (e ▸ List.mem_reverse.1 hc)
  simpa using hne

theorem lastSegment_append_dot (p m : List Char) (h : '.' ∉ m) :
    lastSegment (p ++ '.' :: m) = m := by
  unfold lastSegment
  have hrev : (p ++ '.' :: m).reverse = m.reverse ++ '.' :: p.reverse := by simp
  rw [hrev, List.takeWhile_append_of_pos]
  · simp
  · intro c hc
    have hne : c ≠ '.' := fun e => h (e ▸ List.mem_reverse.1 hc)
    simpa using hne

/-- The lookup returns what the first file yields whose package occurs in the
name and that declares a message with the last segment of the name. -/
theorem findMessageDescriptor_eq (reg : Files) (name : String) :
    findMessageDescriptor reg name =
      match reg.findSome? (fun fd =>
          if strings.Contains name fd.Package then ByName fd.Messages (FullName.Name name)
          else none) with
      | none => .error "not found"
      | some d => .ok d := by
  unfold findMessageDescriptor
  have key : ∀ reg : Files,
      RangeFiles
        (fun fd (md : Option MessageDescriptor) =>
          if strings.Contains name fd.Package then
            let md1 := ByName fd.Messages (FullName.Name name)
            if md1.isSome then (false, md1) else (true, md1)
          else
            (true, md))
        reg none
      = reg.findSome? (fun fd =>
          if strings.Contains name fd.Package then ByName fd.Messages (FullName.Name name)
          else none) := by
    intro reg
    induction reg with
    | nil => rfl
    | cons fd rest ih =>
      simp only [RangeFiles, List.findSome?_cons]
      by_cases hc : strings.Contains name fd.Package = true
      · cases hb : ByName fd.Messages (FullName.Name name) with
        | none => simp [hc, hb, ih]
        | some d => simp [hc, hb]
      · simp [hc, ih]
  simp only [key]

theorem ByName_eq_none {ms : List MessageDescriptor} {s : String} :
    ByName ms s = none ↔ ∀ md ∈ ms, md.Name ≠ s := by
  simp [ByName]

theorem ByName_eq_some {ms : List MessageDescriptor} {s : String} {d : MessageDescriptor}
    (h : ByName ms s = some d) : d ∈ ms ∧ d.Name = s := by
  unfold ByName at h
  exact ⟨List.mem_of_find?_eq_some h, by simpa using List.find?_some h⟩

theorem ByName_isSome_of_mem {ms : List MessageDescriptor} {md : MessageDescriptor}
    (h : md ∈ ms) : ∃ d, ByName ms md.Name = some d := by
  cases hb : ByName ms md.Name with
  | none => exact absurd rfl (ByName_eq_none.1 hb md h)
  | some d => exact ⟨d, rfl⟩

theorem RangeFields.loop_total {σ : Type} (b : FieldDescriptor → σ → Bool)
    (g : FieldDescriptor → σ → σ) (fs : List FieldDescriptor) (s : σ) :
    RangeFields.loop (fun fd s => .ret (b fd s, g fd s)) fs s
      = .ret (fs.foldl (fun s fd => g fd s) s) := by
  induction fs generalizing s with
  | nil => rfl
  | cons fd rest ih =>
    simp only [RangeFields.loop, Result.ret_bind, List.foldl_cons]
    exact ih _

theorem Result.bind_ret {α : Type} (r : Result α) : r.bind .ret = r := by
  cases r <;> rfl

theorem RangeFields.foldl_bind {σ : Type} (fun_ : FieldDescriptor → σ → Result (Bool × σ))
    (fs : List FieldDescriptor) (acc : Result σ) :
    fs.foldl (fun acc fd => acc.bind fun s => (fun_ fd s).bind fun x => .ret x.2) acc
      = acc.bind fun s =>
          fs.foldl (fun acc fd => acc.bind fun s => (fun_ fd s).bind fun x => .ret x.2)
            (.ret s) := by
  induction fs generalizing acc with
  | nil => simp only [List.foldl_nil]; exact (Result.bind_ret acc).symm
  | cons fd rest ih =>
    simp only [List.foldl_cons]
    rw [ih, Result.bind_assoc]
    congr 1
    funext s
    rw [Result.ret_bind]
    exact (ih _).symm

theorem RangeFields.loop_eq_foldl {σ : Type} (fun_ : FieldDescriptor → σ → Result (Bool × σ))
    (fs : List FieldDescriptor) (s : σ) :
    RangeFields.loop fun_ fs s
      = fs.foldl (fun acc fd => acc.bind fun s => (fun_ fd s).bind fun x => .ret x.2)
          (.ret s) := by
  induction fs generalizing s with
  | nil => rfl
  | cons fd rest ih =>
    simp only [RangeFields.loop, List.foldl_cons, Result.ret_bind]
    rw [RangeFields.foldl_bind, Result.bind_assoc]
    congr 1
    funext x
    rw [Result.ret_bind]
    exact ih x.2

/-! ## What a call writes to standard error -/

theorem GenerateRandomValue_stderr (P : Pool)
    (gen : MessageDescriptor → World → Result (Message × World)) (T : MessageRef → List String)
    (fd : FieldDescriptor)
    (hgen : ∀ r, fd.Kind = .MessageKind → fd.Message = some r →
      ∀ w m w1, gen (P r) w = .ret (m, w1) → w1.stderr = w.stderr ++ T r)
    (w : World) (v : Value) (w1 : World)
    (h : GenerateRandomValue P gen fd w = .ret (v, w1)) :
    w1.stderr = w.stderr ++ nestedLines T fd := by
  unfold GenerateRandomValue at h
  unfold nestedLines
  cases hk : fd.Kind <;> simp only [hk] at h ⊢ <;>
    try (simp only [Result.ret.injEq, Prod.mk.injEq] at h
         obtain ⟨rfl, rfl⟩ := h
         simp)
  · cases he : fd.Enum with
    | none => simp [he] at h
    | some e =>
      cases hv : e.Values with
      | nil => simp [he, hv] at h
      | cons v0 rest =>
        simp only [he, hv, Result.ret.injEq, Prod.mk.injEq] at h
        obtain ⟨rfl, rfl⟩ := h
        simp
  · cases hm : fd.Message with
    | none => simp [hm] at h
    | some r =>
      simp only [hm, Result.bind_eq_ret] at h
      obtain ⟨⟨n, w5⟩, hn, hv⟩ := h
      simp only [Result.ret.injEq, Prod.mk.injEq] at hv
      obtain ⟨rfl, rfl⟩ := hv
      exact hgen r hk hm w n w5 hn

theorem RangeFields.loop_stderr (P : Pool)
    (gen : MessageDescriptor → World → Result (Message × World)) (T : MessageRef → List String) :
    ∀ (fs : List FieldDescriptor),
      (∀ fd ∈ fs, ∀ r, fd.Kind = .MessageKind → fd.Message = some r →
        ∀ w m w1, gen (P r) w = .ret (m, w1) → w1.stderr = w.stderr ++ T r) →
      ∀ (m : Message) (w : World) (m1 : Message) (w1 : World),
        RangeFields.loop (SetRandomValueFun P gen) fs (m, w) = .ret (m1, w1) →
        w1.stderr = w.stderr ++ fs.flatMap (nestedLines T) := by
  intro fs
  induction fs with
  | nil =>
    intro _ m w m1 w1 h
    simp only [RangeFields.loop, Result.ret.injEq, Prod.mk.injEq] at h
    obtain ⟨rfl, rfl⟩ := h
    simp
  | cons g rest ih =>
    intro hgen m w m1 w1 h
    simp only [RangeFields.loop] at h
    obtain ⟨⟨b, m2, w2⟩, hstep, hrest⟩ := Result.bind_eq_ret.1 h
    obtain ⟨v, hv, _⟩ := SetRandomValueFun_ret hstep
    have h2 := GenerateRandomValue_stderr P gen T g (hgen g (List.mem_cons_self _ _)) w v w2 hv
    have h1 := ih (fun fd hfd => hgen fd (List.mem_cons_of_mem _ hfd)) m2 w2 m1 w1 hrest
    rw [h1, h2, List.flatMap_cons, List.append_assoc]

/-- A returning call has appended to standard error the lines of `stderrLines`,
one for each call of `GenerateRandomMessage` it stands for, and nothing else. -/
theorem GenerateRandomMessage_stderr (P : Pool) :
    ∀ (fuel : Nat) (md : MessageDescriptor) (w : World) (m : Message) (w1 : World),
      GenerateRandomMessage P fuel md w = .ret (m, w1) →
      w1.stderr = w.stderr ++ stderrLines P fuel md := by
  intro fuel
  induction fuel with
  | zero => intro md w m w1 h; simp [GenerateRandomMessage] at h
  | succ n ih =>
    intro md w m w1 h
    rw [GenerateRandomMessage_succ] at h
    by_cases hts : md.FullName = "google.protobuf.Timestamp"
    · simp only [hts, if_true, Result.ret.injEq, Prod.mk.injEq] at h
      rw [← h.2]
      simp [stderrLines, hts, World.Now, World.Fprintln]
    · simp only [hts, if_false, RangeFields] at h
      have hloop := RangeFields.loop_stderr P (GenerateRandomMessage P n)
        (fun r => stderrLines P n (P r)) md.Fields
        (fun fd _ r _ _ w2 m2 w3 hret => ih (P r) w2 m2 w3 hret) _ _ m w1 h
      rw [hloop]
      simp [stderrLines, hts, World.Fprintln]

/-! ## Termination on bounded chains of references -/

theorem Result.bind_ne_outOfFuel {α β : Type} {r : Result α} {f : α → Result β}
    (hr : r ≠ .outOfFuel) (hf : ∀ a, r = .ret a → f a ≠ .outOfFuel) :
    r.bind f ≠ .outOfFuel := by
  cases r with
  | ret a => exact hf a rfl
  | panic => intro h; cases h
  | outOfFuel => exact absurd rfl hr

theorem GenerateRandomValue_ne_outOfFuel (P : Pool)
    (gen : MessageDescriptor → World → Result (Message × World)) (fd : FieldDescriptor)
    (hgen : ∀ r, fd.Kind = .MessageKind → fd.Message = some r → ∀ w, gen (P r) w ≠ .outOfFuel)
    (w : World) : GenerateRandomValue P gen fd w ≠ .outOfFuel := by
  unfold GenerateRandomValue
  cases hk : fd.Kind <;> simp only [hk] <;> try (intro h; cases h)
  · cases he : fd.Enum with
    | none => simp
    | some e =>
      cases hv : e.Values with
      | nil => simp [hv]
      | cons v0 rest => simp [hv]
  · cases hm : fd.Message with
    | none => simp
    | some r =>
      simp only
      exact Result.bind_ne_outOfFuel (hgen r hk hm w) (fun a _ h => by cases h)

theorem Message.Set_ne_outOfFuel (P : Pool) (m : Message) (fd : FieldDescriptor) (v : Value) :
    m.Set P fd v ≠ .outOfFuel := by
  unfold Message.Set
  split <;> (intro h; cases h)

theorem Message.Append_ne_outOfFuel (P : Pool) (m : Message) (fd : FieldDescriptor)
    (elems : List Value) (v : Value) : m.Append P fd elems v ≠ .outOfFuel := by
  unfold Message.Append
  split <;> (intro h; cases h)

theorem Message.ListAt_ne_outOfFuel (m : Message) (fd : FieldDescriptor) :
    m.ListAt fd ≠ .outOfFuel := by
  unfold Message.ListAt
  split <;> (intro h; cases h)

theorem SetRandomValueFun_ne_outOfFuel (P : Pool)
    (gen : MessageDescriptor → World → Result (Message × World)) (fd : FieldDescriptor)
    (hgen : ∀ r, fd.Kind = .MessageKind → fd.Message = some r → ∀ w, gen (P r) w ≠ .outOfFuel)
    (s : Message × World) : SetRandomValueFun P gen fd s ≠ .outOfFuel := by
  unfold SetRandomValueFun
  split
  · refine Result.bind_ne_outOfFuel (Message.ListAt_ne_outOfFuel _ _) (fun elems _ => ?_)
    refine Result.bind_ne_outOfFuel (GenerateRandomValue_ne_outOfFuel P gen fd hgen _)
      (fun a _ => ?_)
    exact Result.bind_ne_outOfFuel (Message.Append_ne_outOfFuel _ _ _ _ _)
      (fun _ _ h => by cases h)
  · refine Result.bind_ne_outOfFuel (GenerateRandomValue_ne_outOfFuel P gen fd hgen _)
      (fun a _ => ?_)
    exact Result.bind_ne_outOfFuel (Message.Set_ne_outOfFuel _ _ _ _) (fun _ _ h => by cases h)

theorem RangeFields.loop_ne_outOfFuel (P : Pool)
    (gen : MessageDescriptor → World → Result (Message × World)) :
    ∀ (fs : List FieldDescriptor),
      (∀ fd ∈ fs, ∀ r, fd.Kind = .MessageKind → fd.Message = some r →
        ∀ w, gen (P r) w ≠ .outOfFuel) →
      ∀ s, RangeFields.loop (SetRandomValueFun P gen) fs s ≠ .outOfFuel := by
  intro fs
  induction fs with
  | nil => intro _ s h; cases h
  | cons g rest ih =>
    intro hgen s
    simp only [RangeFields.loop]
    exact Result.bind_ne_outOfFuel
      (SetRandomValueFun_ne_outOfFuel P gen g (hgen g (List.mem_cons_self _ _)) s)
      (fun a _ => ih (fun fd hfd => hgen fd (List.mem_cons_of_mem _ hfd)) a.2)

/-- When the chains of nested-message references from `md` have at most `n`
links, a call on `md` ends within depth `n + 1`: it returns or it panics. -/
theorem GenerateRandomMessage_terminates (P : Pool) :
    ∀ (n : Nat) (md : MessageDescriptor), ChainsWithin P n md →
      ∀ w, GenerateRandomMessage P (n + 1) md w ≠ .outOfFuel := by
  intro n
  induction n with
  | zero =>
    intro md hmd w
    rw [GenerateRandomMessage_succ]
    split
    · intro h; cases h
    · exact RangeFields.loop_ne_outOfFuel P _ md.Fields
        (fun fd hfd r hk hm _ => absurd ⟨fd, hfd, hk, r, hm, rfl⟩ (hmd (P r))) _
  | succ k ih =>
    intro md hmd w
    rw [GenerateRandomMessage_succ]
    split
    · intro h; cases h
    · exact RangeFields.loop_ne_outOfFuel P _ md.Fields
        (fun fd hfd r hk hm w2 => ih (P r) (hmd (P r) ⟨fd, hfd, hk, r, hm, rfl⟩) w2) _

/-- The bound of `ChainsWithin` read on the chains themselves: the lists of
descriptors in which each is referenced by the one before it. -/
theorem ChainsWithin_iff (P : Pool) :
    ∀ (n : Nat) (md : MessageDescriptor),
      ChainsWithin P n md ↔ ∀ l, List.Chain (Nests P) md l → l.length ≤ n := by
  intro n
  induction n with
  | zero =>
    intro md
    constructor
    · intro h l hl
      cases hl with
      | nil => simp
      | cons hab _ => exact absurd hab (h _)
    · intro h b hb
      have := h [b] (List.Chain.cons hb List.Chain.nil)
      simp at this
  | succ k ih =>
    intro md
    constructor
    · intro h l hl
      cases hl with
      | nil => simp
      | cons hab hrest =>
        have := (ih _).1 (h _ hab) _ hrest
        simp only [List.length_cons]
        omega
    · intro h b hb
      refine (ih b).2 (fun l hl => ?_)
      have := h (b :: l) (List.Chain.cons hb hl)
      simp only [List.length_cons] at this
      omega

theorem timestampFree_of_nests (P : Pool) (md : MessageDescriptor)
    (h : ∀ d, Relation.ReflTransGen (Nests P) md d → d.FullName ≠ "google.protobuf.Timestamp") :
    TimestampFree P md := by
  intro d hd
  exact h d (Relation.ReflTransGen.mono (fun a b hab => hab.2) hd)

/-! ## Serialization under another order of the fields -/

/-- Lists of records that agree record by record up to rearrangement have
concatenations that agree up to rearrangement. -/
theorem flatten_perm_of_forall2 {r1 r2 : List (List Nat)} (h : List.Forall₂ List.Perm r1 r2) :
    r1.flatten.Perm r2.flatten := by
  induction h with
  | nil => exact List.Perm.refl _
  | cons hab _ ih => simpa using List.Perm.append hab ih

theorem flatMap_perm_of_forall2 (t : List Nat) {r1 r2 : List (List Nat)}
    (h : List.Forall₂ List.Perm r1 r2) :
    (r1.flatMap fun p => t ++ p).Perm (r2.flatMap fun p => t ++ p) := by
  induction h with
  | nil => exact List.Perm.refl _
  | cons hab _ ih =>
    simp only [List.flatMap_cons]
    exact List.Perm.append (List.Perm.append_left _ hab) ih

/-- Framing keeps rearrangement: the length in front is the same. -/
theorem proto.frameMessage_perm (fd : FieldDescriptor) {b1 b2 p1 : List Nat} (hb : b1.Perm b2)
    (h : proto.frameMessage fd b1 = .ret p1) :
    ∃ p2, proto.frameMessage fd b2 = .ret p2 ∧ p1.Perm p2 := by
  unfold proto.frameMessage at h ⊢
  cases hk : fd.Kind <;> simp only [hk] at h ⊢ <;> try (cases h; done)
  · simp only [Result.ret.injEq] at h
    subst h
    exact ⟨_, rfl, by rw [hb.length_eq]; exact List.Perm.append_left _ hb⟩
  · simp only [Result.ret.injEq] at h
    subst h
    exact ⟨_, rfl, List.Perm.append_right _ hb⟩

mutual
/-- Under two orders that only rearrange the records, `marshalSingular` returns
under both or under neither, and the bytes of one are those of the other
rearranged; the same for the other functions of the serialization. -/
theorem proto.marshalSingular_perm (o1 o2 : FieldOrder) (h1 : o1.Permutes) (h2 : o2.Permutes)
    (fd : FieldDescriptor) : ∀ (v : Value) (b1 : List Nat),
    proto.marshalSingular o1 fd v = .ret b1 →
    ∃ b2, proto.marshalSingular o2 fd v = .ret b2 ∧ b1.Perm b2
  | .message m, b1, h => by
    rw [proto.marshalSingular] at h ⊢
    obtain ⟨c1, hc, hf⟩ := Result.bind_eq_ret.1 h
    obtain ⟨c2, hc2, hp⟩ := proto.marshalMessage_perm o1 o2 h1 h2 m c1 hc
    obtain ⟨p2, hp2, hpp⟩ := proto.frameMessage_perm fd hp hf
    exact ⟨p2, by rw [hc2]; exact hp2, hpp⟩
  | .invalid, b1, h => ⟨b1, h, List.Perm.refl _⟩
  | .bool _, b1, h => ⟨b1, h, List.Perm.refl _⟩
  | .int32 _, b1, h => ⟨b1, h, List.Perm.refl _⟩
  | .int64 _, b1, h => ⟨b1, h, List.Perm.refl _⟩
  | .uint32 _, b1, h => ⟨b1, h, List.Perm.refl _⟩
  | .uint64 _, b1, h => ⟨b1, h, List.Perm.refl _⟩
  | .float32 _, b1, h => ⟨b1, h, List.Perm.refl _⟩
  | .float64 _, b1, h => ⟨b1, h, List.Perm.refl _⟩
  | .string _, b1, h => ⟨b1, h, List.Perm.refl _⟩
  | .bytes _, b1, h => ⟨b1, h, List.Perm.refl _⟩
  | .enum _, b1, h => ⟨b1, h, List.Perm.refl _⟩
  | .list _, b1, h => ⟨b1, h, List.Perm.refl _⟩
termination_by structural v => v
theorem proto.marshalMessage_perm (o1 o2 : FieldOrder) (h1 : o1.Permutes) (h2 : o2.Permutes) :
    ∀ (m : Message) (b1 : List Nat),
    proto.marshalMessage o1 m = .ret b1 →
    ∃ b2, proto.marshalMessage o2 m = .ret b2 ∧ b1.Perm b2
  | .mk d known, b1, h => by
    rw [proto.marshalMessage] at h ⊢
    obtain ⟨r1, hr, hb⟩ := Result.bind_eq_ret.1 h
    obtain ⟨r2, hr2, hp⟩ := proto.marshalFields_perm o1 o2 h1 h2 d known r1 hr
    rw [hr2]
    simp only [Result.ret_bind, Result.ret.injEq] at hb ⊢
    subst hb
    refine ⟨_, rfl, ?_⟩
    have hflat := flatten_perm_of_forall2 hp
    split
    · exact hflat
    · exact ((h1 r1).flatten.trans hflat).trans (h2 r2).flatten.symm
termination_by structural m => m
theorem proto.marshalFields_perm (o1 o2 : FieldOrder) (h1 : o1.Permutes) (h2 : o2.Permutes)
    (d : MessageDescriptor) : ∀ (known : List (Nat × Value)) (r1 : List (List Nat)),
    proto.marshalFields o1 d known = .ret r1 →
    ∃ r2, proto.marshalFields o2 d known = .ret r2 ∧ List.Forall₂ List.Perm r1 r2
  | [], r1, h => by
    rw [proto.marshalFields] at h ⊢
    simp only [Result.ret.injEq] at h
    subst h
    exact ⟨_, rfl, List.Forall₂.nil⟩
  | (num, v) :: rest, r1, h => by
    rw [proto.marshalFields] at h ⊢
    cases hfd : ByNumber d num with
    | none => simp [hfd] at h
    | some fd =>
      simp only [hfd] at h ⊢
      obtain ⟨set, hset, h⟩ := Result.bind_eq_ret.1 h
      obtain ⟨here, hhere, h⟩ := Result.bind_eq_ret.1 h
      obtain ⟨there, hthere, h⟩ := Result.bind_eq_ret.1 h
      simp only [Result.ret.injEq] at h
      subst h
      obtain ⟨there2, hthere2, hpt⟩ := proto.marshalFields_perm o1 o2 h1 h2 d rest there hthere
      rw [hset, hthere2]
      simp only [Result.ret_bind]
      cases set with
      | false =>
        simp only [Bool.false_eq_true, if_false, Result.ret.injEq] at hhere ⊢
        subst hhere
        exact ⟨_, rfl, by simpa using hpt⟩
      | true =>
        simp only [if_true] at hhere ⊢
        obtain ⟨rec1, hrec, hh⟩ := Result.bind_eq_ret.1 hhere
        simp only [Result.ret.injEq] at hh
        subst hh
        obtain ⟨rec2, hrec2, hpr⟩ := proto.marshalField_perm o1 o2 h1 h2 fd v rec1 hrec
        rw [hrec2]
        exact ⟨_, rfl, List.Forall₂.cons hpr hpt⟩
termination_by structural known => known
theorem proto.marshalField_perm (o1 o2 : FieldOrder) (h1 : o1.Permutes) (h2 : o2.Permutes)
    (fd : FieldDescriptor) : ∀ (v : Value) (b1 : List Nat),
    proto.marshalField o1 fd v = .ret b1 →
    ∃ b2, proto.marshalField o2 fd v = .ret b2 ∧ b1.Perm b2
  | .list elems, b1, h => by
    rw [proto.marshalField] at h ⊢
    cases hl : fd.IsList with
    | false => simp [hl] at h
    | true =>
      simp only [hl, if_true] at h ⊢
      obtain ⟨ps1, hps, h⟩ := Result.bind_eq_ret.1 h
      obtain ⟨ps2, hps2, hpp⟩ := proto.marshalList_perm o1 o2 h1 h2 fd elems ps1 hps
      rw [hps2]
      simp only [Result.ret_bind]
      have hflat := flatten_perm_of_forall2 hpp
      by_cases hc : (fd.IsPacked && decide (0 < elems.length)) = true
      · rw [if_pos hc] at h ⊢
        simp only [Result.ret.injEq] at h
        subst h
        refine ⟨_, rfl, ?_⟩
        rw [hflat.length_eq]
        exact List.Perm.append_left _ hflat
      · rw [if_neg hc] at h ⊢
        simp only [Result.ret.injEq] at h
        subst h
        refine ⟨_, rfl, ?_⟩
        exact flatMap_perm_of_forall2 _ hpp
  | .message m, b1, h => by
    rw [proto.marshalField] at h ⊢
    cases hl : fd.IsList with
    | true => simp [hl] at h
    | false =>
      cases hm : fd.IsMap with
      | true => simp [hl, hm] at h
      | false =>
        simp only [hl, hm, Bool.false_eq_true, if_false] at h ⊢
        obtain ⟨c1, hc, h⟩ := Result.bind_eq_ret.1 h
        obtain ⟨p1, hf, h⟩ := Result.bind_eq_ret.1 h
        simp only [Result.ret.injEq] at h
        subst h
        obtain ⟨c2, hc2, hp⟩ := proto.marshalMessage_perm o1 o2 h1 h2 m c1 hc
        obtain ⟨p2, hp2, hpp⟩ := proto.frameMessage_perm fd hp hf
        rw [hc2]
        simp only [Result.ret_bind, hp2]
        exact ⟨_, rfl, List.Perm.append_left _ hpp⟩
  | .invalid, b1, h => ⟨b1, h, List.Perm.refl _⟩
  | .bool _, b1, h => ⟨b1, h, List.Perm.refl _⟩
  | .int32 _, b1, h => ⟨b1, h, List.Perm.refl _⟩
  | .int64 _, b1, h => ⟨b1, h, List.Perm.refl _⟩
  | .uint32 _, b1, h => ⟨b1, h, List.Perm.refl _⟩
  | .uint64 _, b1, h => ⟨b1, h, List.Perm.refl _⟩
  | .float32 _, b1, h => ⟨b1, h, List.Perm.refl _⟩
  | .float64 _, b1, h => ⟨b1, h, List.Perm.refl _⟩
  | .string _, b1, h => ⟨b1, h, List.Perm.refl _⟩
  | .bytes _, b1, h => ⟨b1, h, List.Perm.refl _⟩
  | .enum _, b1, h => ⟨b1, h, List.Perm.refl _⟩
termination_by structural v => v
theorem proto.marshalList_perm (o1 o2 : FieldOrder) (h1 : o1.Permutes) (h2 : o2.Permutes)
    (fd : FieldDescriptor) : ∀ (elems : List Value) (r1 : List (List Nat)),
    proto.marshalList o1 fd elems = .ret r1 →
    ∃ r2, proto.marshalList o2 fd elems = .ret r2 ∧ List.Forall₂ List.Perm r1 r2
  | [], r1, h => by
    rw [proto.marshalList] at h ⊢
    simp only [Result.ret.injEq] at h
    subst h
    exact ⟨_, rfl, List.Forall₂.nil⟩
  | v :: rest, r1, h => by
    rw [proto.marshalList] at h ⊢
    obtain ⟨p1, hp, h⟩ := Result.bind_eq_ret.1 h
    obtain ⟨ps1, hps, h⟩ := Result.bind_eq_ret.1 h
    simp only [Result.ret.injEq] at h
    subst h
    obtain ⟨p2, hp2, hpp⟩ := proto.marshalSingular_perm o1 o2 h1 h2 fd v p1 hp
    obtain ⟨ps2, hps2, hpps⟩ := proto.marshalList_perm o1 o2 h1 h2 fd rest ps1 hps
    rw [hp2, hps2]
    exact ⟨_, rfl, List.Forall₂.cons hpp hpps⟩
termination_by structural elems => elems
end

/-! ## Claims -/

/-- C1, as the specification states it, fails on `Node`: however large the bound
on the depth of recursive expansions, no call on `Node` returns an instance. -/
theorem node_never_returns :
    ¬ ∃ (fuel : Nat) (w : World) (x : Message × World),
      GenerateRandomMessage nodePool fuel nodeDescriptor w = .ret x := by
  rintro ⟨fuel, w, x, h⟩
  rw [node_outOfFuel] at h
  cases h

/-- C1, amended: on a self-referential message type, one that a chain of
nested-message fields leads back to without passing through a descriptor named
`google.protobuf.Timestamp`, `GenerateRandomMessage` returns no instance under
any bound on the depth of recursive expansions; on `Node` every bound is
exceeded. -/
theorem GenerateRandomMessage_selfReferential (P : Pool) (md : MessageDescriptor)
    (hcyc : Relation.TransGen (Expands P) md md) :
    (∀ fuel w x, GenerateRandomMessage P fuel md w ≠ .ret x) ∧
    (∀ fuel w, GenerateRandomMessage nodePool fuel nodeDescriptor w = .outOfFuel) :=
  ⟨fun fuel => GenerateRandomMessage_cycle_ne_ret P md hcyc fuel md hcyc, node_outOfFuel⟩

/-- C1, amended, at `Node`, which expands into itself through `children`. -/
theorem GenerateRandomMessage_selfReferential_witness :
    Relation.TransGen (Expands nodePool) nodeDescriptor nodeDescriptor ∧
    ∀ fuel w x, GenerateRandomMessage nodePool fuel nodeDescriptor w ≠ .ret x :=
  have h : Relation.TransGen (Expands nodePool) nodeDescriptor nodeDescriptor :=
    Relation.TransGen.single
      ⟨by decide, { messageField "children" 2 0 with IsList := true, HasPresence := false },
        by simp [nodeDescriptor], rfl, 0, rfl, rfl⟩
  ⟨h, (GenerateRandomMessage_selfReferential nodePool nodeDescriptor h).1⟩

/-- C3, as the specification states it, fails on the message named like the
timestamp type: the call returns, `tags` is a declared repeated field, and the
returned instance holds no list under it. -/
theorem repeated_field_without_element :
    ∃ m w1 fd, GenerateRandomMessage personPool 1 taggedTimestampDescriptor (worldAt ⟨0, 0⟩)
        = .ret (m, w1) ∧
      fd ∈ taggedTimestampDescriptor.Fields ∧ fd.IsList = true ∧ m.get? fd.Number = none :=
  ⟨_, _, { scalarField "tags" 3 .StringKind with IsList := true }, rfl,
    List.mem_cons_of_mem _ (List.mem_cons_of_mem _ (List.mem_cons_self _ _)), rfl, rfl⟩

/-- C3, amended: on a well-formed message type not named
`google.protobuf.Timestamp` on which `GenerateRandomMessage` returns, the list
stored under every repeated field has exactly one element. -/
theorem GenerateRandomMessage_repeated_one (P : Pool) (fuel : Nat) (md : MessageDescriptor)
    (w : World) (m : Message) (w1 : World)
    (hts : md.FullName ≠ "google.protobuf.Timestamp") (hwf : WellFormed md)
    (hret : GenerateRandomMessage P fuel md w = .ret (m, w1))
    (fd : FieldDescriptor) (hfd : fd ∈ md.Fields) (hl : fd.IsList = true) :
    ∃ v, m.get? fd.Number = some (.list [v]) := by
  cases fuel with
  | zero => simp [GenerateRandomMessage] at hret
  | succ n =>
    obtain ⟨v, _, _, _, hget⟩ :=
      GenerateRandomMessage_field P n md w m w1 hts hwf.1 hret fd hfd
        (KeptToEnd_of_not_oneof md fd (hwf.2 fd hfd hl))
    exact ⟨v, by simpa [hl] using hget⟩

/-- C3, amended, at `Person` and its repeated field `emails`. -/
theorem GenerateRandomMessage_repeated_one_witness :
    ∃ v, personInstance.get? 3 = some (.list [v]) :=
  GenerateRandomMessage_repeated_one personPool 2 personDescriptor (worldAt ⟨0, 0⟩)
    personInstance _ (by decide) personDescriptor_wellFormed rfl
    { scalarField "emails" 3 .StringKind with IsList := true }
    (by simp [personDescriptor]) rfl

/-- C4, as the specification states it, fails in its second half.  On the message
named like the timestamp type the call returns and nothing is stored under the
enum field `color` (number 4); on `Choice` the call returns and nothing is
stored under the enum field `b` (number 2), which later members of its oneof
cleared. -/
theorem enum_field_not_stored :
    (∃ m w1, GenerateRandomMessage personPool 1 taggedTimestampDescriptor (worldAt ⟨0, 0⟩)
        = .ret (m, w1) ∧ colorField "color" 4 ∈ taggedTimestampDescriptor.Fields ∧
      m.get? 4 = none) ∧
    (∃ m w1, GenerateRandomMessage personPool 2 choiceDescriptor (worldAt ⟨0, 0⟩) = .ret (m, w1) ∧
      { colorField "b" 2 with ContainingOneof := some 0 } ∈ choiceDescriptor.Fields ∧
      m.get? 2 = none) :=
  ⟨⟨_, _, rfl, by simp [taggedTimestampDescriptor], rfl⟩,
   ⟨_, _, rfl, by simp [choiceDescriptor], rfl⟩⟩

/-- C4, amended: for an enum field whose enum has a first declared value,
`GenerateRandomValue` returns the number of that value; and on a well-formed
message type not named `google.protobuf.Timestamp` on which
`GenerateRandomMessage` returns, the returned instance holds that number under
the field (as the one element of the list when the field is repeated), provided
no field declared later shares a oneof with it. -/
theorem GenerateRandomMessage_enum_first (P : Pool) (fd : FieldDescriptor)
    (e : EnumDescriptor) (v0 : EnumValueDescriptor) (rest : List EnumValueDescriptor)
    (hk : fd.Kind = .EnumKind) (he : fd.Enum = some e) (hv : e.Values = v0 :: rest) :
    (∀ gen w, GenerateRandomValue P gen fd w = .ret (.enum v0.Number, w)) ∧
    (∀ fuel md w m w1, md.FullName ≠ "google.protobuf.Timestamp" → WellFormed md →
      GenerateRandomMessage P fuel md w = .ret (m, w1) → fd ∈ md.Fields → KeptToEnd md fd →
      m.get? fd.Number
        = some (if fd.IsList then .list [.enum v0.Number] else .enum v0.Number)) := by
  have hval : ∀ gen w, GenerateRandomValue P gen fd w = .ret (.enum v0.Number, w) := by
    intro gen w
    simp [GenerateRandomValue, hk, he, hv]
  refine ⟨hval, ?_⟩
  intro fuel md w m w1 hts hwf hret hfd hlast
  cases fuel with
  | zero => simp [GenerateRandomMessage] at hret
  | succ n =>
    obtain ⟨v, w2, w3, hgen, hget⟩ :=
      GenerateRandomMessage_field P n md w m w1 hts hwf.1 hret fd hfd hlast
    rw [hval] at hgen
    simp only [Result.ret.injEq, Prod.mk.injEq] at hgen
    rw [hget, ← hgen.1]

/-- C4, amended, at `Paint` and its repeated enum field `palette`. -/
theorem GenerateRandomMessage_enum_first_witness :
    paintInstance.get? 2 = some (.list [.enum 7]) :=
  (GenerateRandomMessage_enum_first personPool
    { colorField "palette" 2 with IsList := true, HasPresence := false }
    colorEnum ⟨"RED", 7⟩ [⟨"GREEN", 0⟩] rfl rfl rfl).2 1 paintDescriptor (worldAt ⟨0, 0⟩)
    paintInstance _ (by decide) paintDescriptor_wellFormed rfl (by simp [paintDescriptor])
    (KeptToEnd_of_not_oneof _ _ rfl)

/-- C5: `GenerateRandomValue` gives every non-float scalar kind one fixed value
that depends on the kind only: `true` for bool, the signed 32-bit 42 for int32,
sint32 and sfixed32, the unsigned 32-bit 42 for uint32 and fixed32, the signed
64-bit 1337 for int64, sint64 and sfixed64, the unsigned 64-bit 1337 for uint64
and fixed64, "Lorem ipsum" for string and the bytes c0 ff ee for bytes.  The
world is left as it was. -/
theorem GenerateRandomValue_scalar (P : Pool)
    (gen : MessageDescriptor → World → Result (Message × World))
    (fd : FieldDescriptor) (w : World) :
    (fd.Kind = .BoolKind → GenerateRandomValue P gen fd w = .ret (.bool true, w)) ∧
    (fd.Kind = .Int32Kind ∨ fd.Kind = .Sint32Kind ∨ fd.Kind = .Sfixed32Kind →
      GenerateRandomValue P gen fd w = .ret (.int32 42, w)) ∧
    (fd.Kind = .Uint32Kind ∨ fd.Kind = .Fixed32Kind →
      GenerateRandomValue P gen fd w = .ret (.uint32 42, w)) ∧
    (fd.Kind = .Int64Kind ∨ fd.Kind = .Sint64Kind ∨ fd.Kind = .Sfixed64Kind →
      GenerateRandomValue P gen fd w = .ret (.int64 1337, w)) ∧
    (fd.Kind = .Uint64Kind ∨ fd.Kind = .Fixed64Kind →
      GenerateRandomValue P gen fd w = .ret (.uint64 1337, w)) ∧
    (fd.Kind = .StringKind → GenerateRandomValue P gen fd w = .ret (.string "Lorem ipsum", w)) ∧
    (fd.Kind = .BytesKind →
      GenerateRandomValue P gen fd w = .ret (.bytes [0xc0, 0xff, 0xee], w)) := by
  refine ⟨?_, ?_, ?_, ?_, ?_, ?_, ?_⟩
  · intro h; simp [GenerateRandomValue, h]
  · rintro (h | h | h) <;> simp [GenerateRandomValue, h]
  · rintro (h | h) <;> simp [GenerateRandomValue, h]
  · rintro (h | h | h) <;> simp [GenerateRandomValue, h]
  · rintro (h | h) <;> simp [GenerateRandomValue, h]
  · intro h; simp [GenerateRandomValue, h]
  · intro h; simp [GenerateRandomValue, h]

/-- C5 at a concrete field: the `age` field of `Person`, of kind int32, gets 42. -/
theorem GenerateRandomValue_scalar_witness :
    GenerateRandomValue personPool (GenerateRandomMessage personPool 0)
      (scalarField "age" 2 .Int32Kind) (worldAt ⟨0, 0⟩) = .ret (.int32 42, worldAt ⟨0, 0⟩) :=
  (GenerateRandomValue_scalar personPool (GenerateRandomMessage personPool 0)
      (scalarField "age" 2 .Int32Kind) (worldAt ⟨0, 0⟩)).2.1 (Or.inl rfl)

/-- C7: on a descriptor named `google.protobuf.Timestamp`, whatever its fields,
`GenerateRandomMessage` returns the timestamp of the instant the clock reads;
the outcome is that of the same call on the descriptor with no field at all
(nothing is synthesized field by field), and calls made when the clock reads
different instants return different instances. -/
theorem GenerateRandomMessage_timestamp (P : Pool) (fuel : Nat) (md : MessageDescriptor) (w : World)
    (h : md.FullName = "google.protobuf.Timestamp") :
    (∃ w1, GenerateRandomMessage P (fuel + 1) md w = .ret (timestamppbNew (w.clock 0), w1)) ∧
    GenerateRandomMessage P (fuel + 1) md w
      = GenerateRandomMessage P (fuel + 1) { md with Fields := [] } w ∧
    ∀ (w2 : World) (m1 m2 : Message) (w3 w4 : World), w.clock 0 ≠ w2.clock 0 →
      GenerateRandomMessage P (fuel + 1) md w = .ret (m1, w3) →
      GenerateRandomMessage P (fuel + 1) md w2 = .ret (m2, w4) → m1 ≠ m2 := by
  have key : ∀ w0 : World, GenerateRandomMessage P (fuel + 1) md w0
      = .ret (timestamppbNew (w0.clock 0), ((w0.Fprintln md.Name).Now).2) := by
    intro w0
    simp [GenerateRandomMessage, h, World.Now, World.Fprintln]
  refine ⟨⟨_, key w⟩, ?_, ?_⟩
  · simp [GenerateRandomMessage, h]
  · intro w2 m1 m2 w3 w4 hne h1 h2 heq
    rw [key] at h1 h2
    simp only [Result.ret.injEq, Prod.mk.injEq] at h1 h2
    apply hne
    have h3 : timestamppbNew (w.clock 0) = timestamppbNew (w2.clock 0) := by
      rw [h1.1, h2.1, heq]
    simp only [timestamppbNew, Message.mk.injEq, List.cons.injEq, Prod.mk.injEq,
      Value.int64.injEq, Value.int32.injEq, true_and, and_true] at h3
    cases hA : w.clock 0 with
    | mk u1 n1 =>
      cases hB : w2.clock 0 with
      | mk u2 n2 =>
        rw [hA, hB] at h3
        simp only [Int.ofNat_eq_coe, Nat.cast_inj] at h3
        rw [h3.1, Fin.ext h3.2]

/-- C7 at a concrete input: the odd timestamp descriptor, one level of fuel. -/
theorem GenerateRandomMessage_timestamp_witness :
    ∃ w1, GenerateRandomMessage (fun _ => oddTimestampDescriptor) 1 oddTimestampDescriptor
      (worldAt ⟨1700000000, 5⟩) = .ret (timestamppbNew ⟨1700000000, 5⟩, w1) :=
  (GenerateRandomMessage_timestamp (fun _ => oddTimestampDescriptor) 0 oddTimestampDescriptor
    (worldAt ⟨1700000000, 5⟩) rfl).1

/-- C8, as the specification states it, fails in two ways.  On `Event`, which is
not named `google.protobuf.Timestamp` and has a field of that type, two calls
made when the clock reads different instants return different instances, and
`writeMessage` writes different bytes for them.  On `Person`, from which no
timestamp is reached, the two calls return the same instance, and still
`writeMessage` writes different bytes for it in two runs: `proto.Marshal`
visits the fields of a dynamic message in the order of a Go map, here once in
the order of the store and once in the opposite order. -/
theorem nested_timestamp_differs :
    (eventDescriptor.FullName ≠ "google.protobuf.Timestamp" ∧
      (∃ w3, GenerateRandomMessage eventPool 2 eventDescriptor (worldAt ⟨1, 0⟩)
        = .ret (eventInstance ⟨1, 0⟩, w3)) ∧
      (∃ w4, GenerateRandomMessage eventPool 2 eventDescriptor (worldAt ⟨2, 0⟩)
        = .ret (eventInstance ⟨2, 0⟩, w4)) ∧
      eventInstance ⟨1, 0⟩ ≠ eventInstance ⟨2, 0⟩ ∧
      writeMessage storeOrder (eventInstance ⟨1, 0⟩) [] = .ret [10, 2, 8, 1] ∧
      writeMessage storeOrder (eventInstance ⟨2, 0⟩) [] = .ret [10, 2, 8, 2]) ∧
    (personDescriptor.FullName ≠ "google.protobuf.Timestamp" ∧
      (∃ w3, GenerateRandomMessage personPool 2 personDescriptor (worldAt ⟨1, 0⟩)
        = .ret (personInstance, w3)) ∧
      (∃ w4, GenerateRandomMessage personPool 2 personDescriptor (worldAt ⟨2, 0⟩)
        = .ret (personInstance, w4)) ∧
      storeOrder.Permutes ∧ reverseOrder.Permutes ∧
      writeMessage storeOrder personInstance [] = .ret
        [10, 11, 76, 111, 114, 101, 109, 32, 105, 112, 115, 117, 109, 16, 42, 26, 11, 76, 111, 114, 101,
          109, 32, 105, 112, 115, 117, 109, 34, 13, 10, 11, 76, 111, 114, 101, 109, 32, 105, 112, 115,
          117, 109] ∧
      writeMessage reverseOrder personInstance [] = .ret
        [34, 13, 10, 11, 76, 111, 114, 101, 109, 32, 105, 112, 115, 117, 109, 26, 11, 76, 111, 114,
          101, 109, 32, 105, 112, 115, 117, 109, 16, 42, 10, 11, 76, 111, 114, 101, 109, 32, 105, 112,
          115, 117, 109] ∧
      writeMessage storeOrder personInstance [] ≠ writeMessage reverseOrder personInstance []) := by
  refine ⟨⟨by decide, ⟨_, rfl⟩, ⟨_, rfl⟩, ?_, rfl, rfl⟩,
    by decide, ⟨_, rfl⟩, ⟨_, rfl⟩, fun _ => List.Perm.refl _, fun records => records.reverse_perm,
    rfl, rfl, ?_⟩
  · intro h
    simp [eventInstance, timestamppbNew] at h
  · intro h
    have hA : writeMessage storeOrder personInstance [] = .ret
        [10, 11, 76, 111, 114, 101, 109, 32, 105, 112, 115, 117, 109, 16, 42, 26, 11, 76, 111, 114, 101,
          109, 32, 105, 112, 115, 117, 109, 34, 13, 10, 11, 76, 111, 114, 101, 109, 32, 105, 112, 115,
          117, 109] := rfl
    have hB : writeMessage reverseOrder personInstance [] = .ret
        [34, 13, 10, 11, 76, 111, 114, 101, 109, 32, 105, 112, 115, 117, 109, 26, 11, 76, 111, 114,
          101, 109, 32, 105, 112, 115, 117, 109, 16, 42, 10, 11, 76, 111, 114, 101, 109, 32, 105, 112,
          115, 117, 109] := rfl
    rw [hA, hB] at h
    simp at h

/-- C8, amended: for a message descriptor from which no descriptor named
`google.protobuf.Timestamp` is reached through nested-message fields (itself
included), two calls of `GenerateRandomMessage` that return, made in any two
worlds (clock readings, standard error, standard output) and under any two
depth bounds, return identical instances, and a call that returns in one world
returns in every other.  `writeMessage` does the same with the two instances
whenever it visits the populated fields in the same order, so that the outputs
are then byte-identical; and under any two orders that only rearrange the
records, if it returns for one instance it returns for the other, and the two
outputs have the same length and hold the same bytes, rearranged. -/
theorem GenerateRandomMessage_deterministic (P : Pool) (md : MessageDescriptor)
    (hfree : TimestampFree P md) (f1 f2 : Nat) (w1 w2 : World) (m1 m2 : Message)
    (w3 w4 : World) (h1 : GenerateRandomMessage P f1 md w1 = .ret (m1, w3))
    (h2 : GenerateRandomMessage P f2 md w2 = .ret (m2, w4)) :
    m1 = m2 ∧
    (∀ w : World, ∃ w5, GenerateRandomMessage P f1 md w = .ret (m1, w5)) ∧
    (∀ (order : FieldOrder) (out : List Nat),
      writeMessage order m1 out = writeMessage order m2 out) ∧
    (∀ o1 o2 : FieldOrder, o1.Permutes → o2.Permutes → ∀ out b1 : List Nat,
      writeMessage o1 m1 out = .ret b1 →
      ∃ b2, writeMessage o2 m2 out = .ret b2 ∧ b1.length = b2.length ∧ b1.Perm b2) := by
  have hany : ∀ w : World, ∃ w5, GenerateRandomMessage P f1 md w = .ret (m1, w5) := by
    intro w
    obtain ⟨w5, h5, _⟩ := GenerateRandomMessage_any_world P f1 md hfree w1 w m1 w3 trivial h1
    exact ⟨w5, h5⟩
  have heq : m1 = m2 := by
    obtain ⟨w5, h5⟩ := hany w2
    have h6 := GenerateRandomMessage_fuel_le P md w2 _ f1 (max f1 f2) (le_max_left _ _) h5
    have h7 := GenerateRandomMessage_fuel_le P md w2 _ f2 (max f1 f2) (le_max_right _ _) h2
    rw [h6] at h7
    simp only [Result.ret.injEq, Prod.mk.injEq] at h7
    exact h7.1
  refine ⟨heq, hany, fun order out => by rw [heq], ?_⟩
  intro o1 o2 ho1 ho2 out b1 hb
  subst heq
  unfold writeMessage proto.Marshal at hb ⊢
  obtain ⟨d1, hd1, hb1⟩ := Result.bind_eq_ret.1 hb
  simp only [Result.ret.injEq] at hb1
  subst hb1
  obtain ⟨d2, hd2, hp⟩ := proto.marshalMessage_perm o1 o2 ho1 ho2 m1 d1 hd1
  rw [hd2]
  exact ⟨out ++ d2, rfl, (List.Perm.append_left out hp).length_eq, List.Perm.append_left out hp⟩

/-- C8, amended, at `Person`, called at two instants and under two depth bounds;
in the order of the store `writeMessage` writes the 43 bytes given. -/
theorem GenerateRandomMessage_deterministic_witness :
    (personInstance = personInstance ∧
      (∀ w : World, ∃ w5, GenerateRandomMessage personPool 2 personDescriptor w
        = .ret (personInstance, w5)) ∧
      (∀ (order : FieldOrder) (out : List Nat),
        writeMessage order personInstance out = writeMessage order personInstance out) ∧
      (∀ o1 o2 : FieldOrder, o1.Permutes → o2.Permutes → ∀ out b1 : List Nat,
        writeMessage o1 personInstance out = .ret b1 →
        ∃ b2, writeMessage o2 personInstance out = .ret b2 ∧ b1.length = b2.length ∧
          b1.Perm b2)) ∧
    writeMessage storeOrder personInstance [] = .ret
        [10, 11, 76, 111, 114, 101, 109, 32, 105, 112, 115, 117, 109, 16, 42, 26, 11, 76, 111, 114, 101,
          109, 32, 105, 112, 115, 117, 109, 34, 13, 10, 11, 76, 111, 114, 101, 109, 32, 105, 112, 115,
          117, 109] :=
  ⟨GenerateRandomMessage_deterministic personPool personDescriptor
    personDescriptor_timestampFree 2 3 (worldAt ⟨1, 0⟩) (worldAt ⟨2, 5⟩) personInstance
    personInstance _ _ rfl rfl, rfl⟩

/-- C9: on `Person` the program returns exactly the instance with
name = "Lorem ipsum", age = 42, emails = ["Lorem ipsum"] and
home = Address with city = "Lorem ipsum", for every world and every depth bound of at least
two; the clock is not read and the two message names are written to standard error. -/
theorem GenerateRandomMessage_person (fuel : Nat) (w : World) :
    GenerateRandomMessage personPool (fuel + 2) personDescriptor w =
      .ret (personInstance,
        { clock := w.clock, stderr := (w.stderr ++ ["Person\n"]) ++ ["Address\n"],
          stdout := w.stdout }) ∧
    personInstance = .mk personDescriptor
      [ (1, .string "Lorem ipsum"),
        (2, .int32 42),
        (3, .list [.string "Lorem ipsum"]),
        (4, .message (.mk addressDescriptor [(1, .string "Lorem ipsum")])) ] :=
  ⟨rfl, rfl⟩

/-- C10: for a field of kind group `GenerateRandomValue` takes none of the cases
of its switch and returns the zero `Value{}`, which the type check of `Set`
refuses, so `GenerateRandomMessage` panics on a message type with a group. -/
theorem GenerateRandomValue_group (P : Pool)
    (gen : MessageDescriptor → World → Result (Message × World)) (w : World) (fuel : Nat) :
    GenerateRandomValue P gen groupField w = .ret (.invalid, w) ∧
    GenerateRandomMessage P (fuel + 1) groupDescriptor w = .panic :=
  ⟨rfl, rfl⟩

theorem personDescriptor_reaches (d : MessageDescriptor)
    (hd : Relation.ReflTransGen (Nests personPool) personDescriptor d) :
    d = personDescriptor ∨ d = addressDescriptor := by
  induction hd with
  | refl => exact Or.inl rfl
  | tail _ hstep ih =>
    obtain ⟨fd, hfd, hk, r, hm, hr⟩ := hstep
    rcases ih with h | h
    · subst h
      simp only [personDescriptor, List.mem_cons, List.mem_singleton, List.not_mem_nil,
        or_false] at hfd
      rcases hfd with h | h | h | h
      · subst h; cases hk
      · subst h; cases hk
      · subst h; cases hk
      · subst h
        simp only [messageField, Option.some.injEq] at hm
        subst hm
        exact Or.inr hr.symm
    · subst h
      simp only [addressDescriptor, List.mem_cons, List.mem_singleton, List.not_mem_nil,
        or_false] at hfd
      subst hfd
      cases hk

theorem labelsDescriptor_chains : ChainsWithin labelsPool 1 labelsDescriptor := by
  intro b hb c hc
  obtain ⟨fd, hfd, hk, r, hm, hr⟩ := hb
  simp only [labelsDescriptor, List.mem_singleton] at hfd
  subst hfd
  simp only [messageField, Option.some.injEq] at hm
  subst hm
  subst hr
  obtain ⟨fd2, hfd2, hk2, _⟩ := hc
  simp only [labelsPool, if_true, labelsEntryDescriptor, List.mem_cons, List.mem_singleton,
    List.not_mem_nil, or_false] at hfd2
  rcases hfd2 with h | h <;> subst h <;> cases hk2

theorem groupDescriptor_chains (P : Pool) : ChainsWithin P 0 groupDescriptor := by
  intro b hb
  obtain ⟨fd, hfd, hk, _⟩ := hb
  simp only [groupDescriptor, List.mem_singleton] at hfd
  subst hfd
  cases hk

/-! ## Return on supported fields -/

theorem typeIsValid_of_singular (P : Pool) (fd : FieldDescriptor) (v : Value)
    (hv : singularTypeIsValid P fd v = true) (hmap : fd.IsMap = false)
    (hlist : fd.IsList = false) : typeIsValid P fd v = true := by
  cases v <;> first
    | (simp only [typeIsValid, hmap, hlist, hv]; rfl)
    | (exfalso
       unfold singularTypeIsValid at hv
       cases hk : fd.Kind <;> simp [hk] at hv)

theorem GenerateRandomValue_returns (P : Pool)
    (gen : MessageDescriptor → World → Result (Message × World)) (fd : FieldDescriptor)
    (hsup : Supported fd)
    (hgen : ∀ r, fd.Kind = .MessageKind → fd.Message = some r → ∀ w, ∃ x, gen (P r) w = .ret x)
    (w : World) : ∃ x, GenerateRandomValue P gen fd w = .ret x := by
  obtain ⟨_, _, henum, hmsg⟩ := hsup
  unfold GenerateRandomValue
  cases hk : fd.Kind <;> simp only [hk] <;> try exact ⟨_, rfl⟩
  · obtain ⟨e, v, rest, he, hv⟩ := henum hk
    simp only [he, hv]
    exact ⟨_, rfl⟩
  · obtain ⟨r, hm⟩ := hmsg hk
    obtain ⟨⟨n, w1⟩, hx⟩ := hgen r hk hm w
    simp only [hm, hx, Result.ret_bind]
    exact ⟨_, rfl⟩

theorem SetRandomValueFun_returns (P : Pool) (fuel : Nat) (fd : FieldDescriptor)
    (hsup : Supported fd)
    (hgen : ∀ r, fd.Kind = .MessageKind → fd.Message = some r →
      ∀ w, ∃ x, GenerateRandomMessage P fuel (P r) w = .ret x)
    (m : Message) (w : World) (hnone : m.get? fd.Number = none) :
    ∃ x, SetRandomValueFun P (GenerateRandomMessage P fuel) fd (m, w) = .ret x := by
  obtain ⟨⟨v, w1⟩, hv⟩ := GenerateRandomValue_returns P _ fd hsup hgen w
  have hvalid := GenerateRandomValue_valid P fuel fd w v w1 hsup.1 hv
  unfold SetRandomValueFun
  by_cases hl : fd.IsList = true
  · have hmut : m.Mutable fd = (clearOtherOneofFields m fd).store fd.Number (.list []) := by
      simp [Message.Mutable, hnone]
    have hlist : (m.Mutable fd).ListAt fd = .ret [] := by
      simp [Message.ListAt, hmut, Message.get?_store]
    simp only [hl, if_true, hlist, hv, Result.ret_bind, Message.Append, hvalid]
    exact ⟨_, rfl⟩
  · have hl2 : fd.IsList = false := by simpa using hl
    have hty := typeIsValid_of_singular P fd v hvalid hsup.2.1 hl2
    simp only [hl, hv, Result.ret_bind, Message.Set, hty, if_true]
    exact ⟨_, rfl⟩

theorem RangeFields.loop_returns (P : Pool) (fuel : Nat) :
    ∀ (fs : List FieldDescriptor) (m : Message) (w : World),
      (fs.map (fun fd => fd.Number)).Nodup →
      (∀ fd ∈ fs, m.get? fd.Number = none) →
      (∀ fd ∈ fs, Supported fd) →
      (∀ fd ∈ fs, ∀ r, fd.Kind = .MessageKind → fd.Message = some r →
        ∀ w, ∃ x, GenerateRandomMessage P fuel (P r) w = .ret x) →
      ∃ x, RangeFields.loop (SetRandomValueFun P (GenerateRandomMessage P fuel)) fs (m, w)
        = .ret x := by
  intro fs
  induction fs with
  | nil => intro m w _ _ _ _; exact ⟨_, rfl⟩
  | cons g rest ih =>
    intro m w hnd hnone hsup hgen
    simp only [List.map_cons, List.nodup_cons, List.mem_map, not_exists, not_and] at hnd
    obtain ⟨⟨b, m2, w2⟩, hstep⟩ := SetRandomValueFun_returns P fuel g
      (hsup g (List.mem_cons_self _ _)) (hgen g (List.mem_cons_self _ _)) m w
      (hnone g (List.mem_cons_self _ _))
    obtain ⟨_, _, _, hkeep⟩ := SetRandomValueFun_effect hstep
    obtain ⟨x, hx⟩ := ih m2 w2 hnd.2
      (fun fd hfd => hkeep fd.Number (fun e => hnd.1 fd hfd e)
        (hnone fd (List.mem_cons_of_mem _ hfd)))
      (fun fd hfd => hsup fd (List.mem_cons_of_mem _ hfd))
      (fun fd hfd => hgen fd (List.mem_cons_of_mem _ hfd))
    exact ⟨x, by simp only [RangeFields.loop, hstep, Result.ret_bind]; exact hx⟩

/-- When the chains of nested-message references from `md` have at most `n`
links and every message type reached has distinct field numbers and supported
fields only, a call on `md` returns an instance within depth `n + 1`. -/
theorem GenerateRandomMessage_returns (P : Pool) :
    ∀ (n : Nat) (md : MessageDescriptor), ChainsWithin P n md →
      (∀ d, Relation.ReflTransGen (Nests P) md d →
        UniqueNumbers d ∧ ∀ fd ∈ d.Fields, Supported fd) →
      ∀ w, ∃ x, GenerateRandomMessage P (n + 1) md w = .ret x := by
  intro n
  induction n with
  | zero =>
    intro md hmd hall w
    rw [GenerateRandomMessage_succ]
    split
    · exact ⟨_, rfl⟩
    · obtain ⟨hu, hsup⟩ := hall md Relation.ReflTransGen.refl
      exact RangeFields.loop_returns P 0 md.Fields _ _ hu (fun _ _ => rfl) hsup
        (fun fd hfd r hk hm _ => absurd ⟨fd, hfd, hk, r, hm, rfl⟩ (hmd (P r)))
  | succ k ih =>
    intro md hmd hall w
    rw [GenerateRandomMessage_succ]
    split
    · exact ⟨_, rfl⟩
    · obtain ⟨hu, hsup⟩ := hall md Relation.ReflTransGen.refl
      exact RangeFields.loop_returns P (k + 1) md.Fields _ _ hu (fun _ _ => rfl) hsup
        (fun fd hfd r hk hm w2 =>
          ih (P r) (hmd (P r) ⟨fd, hfd, hk, r, hm, rfl⟩)
            (fun d hd => hall d (Relation.ReflTransGen.head ⟨fd, hfd, hk, r, hm, rfl⟩ hd)) w2)

/-! ## What a returned instance reports as set -/

theorem declaredBefore_append (pre post : List FieldDescriptor) (fd : FieldDescriptor)
    (h : fd ∉ pre) : declaredBefore (pre ++ fd :: post) fd = pre := by
  induction pre with
  | nil => simp [declaredBefore]
  | cons g rest ih =>
    have hg : g ≠ fd := fun e => h (e ▸ List.mem_cons_self _ _)
    simp only [List.cons_append, declaredBefore, hg, if_false]
    exact congrArg (fun l => g :: l) (ih (fun hm => h (List.mem_cons_of_mem _ hm)))

theorem singular_of_typeIsValid (P : Pool) (fd : FieldDescriptor) (v : Value)
    (h : typeIsValid P fd v = true) (hl : fd.IsList = false) :
    singularTypeIsValid P fd v = true ∧ fd.IsMap = false := by
  cases v <;> simp_all [typeIsValid]

/-- The core fact on a declared field of a returned instance, with the world in
which the field was filled: the loop over the fields declared before `fd` ended
in a message and a world, `GenerateRandomValue` ran on `fd` in that world, its
value passed the type check, and the instance holds it under `fd`. -/
theorem GenerateRandomMessage_field_at (P : Pool) (fuel : Nat) (md : MessageDescriptor)
    (w : World) (m : Message) (w1 : World)
    (hts : md.FullName ≠ "google.protobuf.Timestamp") (hu : UniqueNumbers md)
    (hret : GenerateRandomMessage P (fuel + 1) md w = .ret (m, w1))
    (fd : FieldDescriptor) (hfd : fd ∈ md.Fields) (hlast : KeptToEnd md fd) :
    ∃ m2 w2 v w3,
      RangeFields.loop (SetRandomValueFun P (GenerateRandomMessage P fuel))
        (declaredBefore md.Fields fd) (NewMessage md, w.Fprintln md.Name) = .ret (m2, w2) ∧
      GenerateRandomValue P (GenerateRandomMessage P fuel) fd w2 = .ret (v, w3) ∧
      singularTypeIsValid P fd v = true ∧ (fd.IsList = false → fd.IsMap = false) ∧
      m.get? fd.Number = some (if fd.IsList then .list [v] else v) := by
  obtain ⟨pre, post, hsplit⟩ := List.append_of_mem hfd
  have hinj := List.inj_on_of_nodup_map hu
  have hu1 : (List.map (fun g : FieldDescriptor => g.Number) pre
      ++ fd.Number :: List.map (fun g : FieldDescriptor => g.Number) post).Nodup := by
    have := hu
    unfold UniqueNumbers at this
    rwa [hsplit, List.map_append, List.map_cons] at this
  have hpre : ∀ g ∈ pre, g.Number ≠ fd.Number := by
    intro g hg e
    have hdis := (List.nodup_append.1 hu1).2.2
    exact hdis (List.mem_map_of_mem _ hg) (e ▸ List.mem_cons_self _ _)
  have hpost : ∀ g ∈ post, g.Number ≠ fd.Number := by
    intro g hg e
    have hnd := (List.nodup_cons.1 (List.nodup_append.1 hu1).2.1).1
    exact hnd (e ▸ List.mem_map_of_mem _ hg)
  have hnotpre : fd ∉ pre := fun hm => hpre fd hm rfl
  have hclear : ∀ g ∈ post, fd.Number ∉ otherOneofFields md g := by
    intro g hg hmem
    obtain ⟨f1, hf1, hshare, _, hnum⟩ := mem_otherOneofFields.1 hmem
    have hf : f1 = fd := hinj hf1 hfd hnum
    subst hf
    have hk := hlast g (by rw [hsplit, declaredAfter_append pre post f1 hnotpre]; exact hg)
    rw [hk] at hshare
    cases hshare
  rw [GenerateRandomMessage_succ] at hret
  simp only [hts, if_false, RangeFields] at hret
  rw [hsplit, RangeFields.loop_append] at hret
  obtain ⟨⟨m2, w2⟩, hrun1, hrun2⟩ := Result.bind_eq_ret.1 hret
  simp only [RangeFields.loop] at hrun2
  obtain ⟨⟨b, m3, w3⟩, hstep, hrun3⟩ := Result.bind_eq_ret.1 hrun2
  obtain ⟨hd2, hnone2, _⟩ :=
    RangeFields.loop_frame P _ md pre _ _ m2 w2 hrun1 (NewMessage_Descriptor md)
  obtain ⟨hd3, ⟨v, hv, hset⟩, _, _⟩ := SetRandomValueFun_effect hstep
  obtain ⟨_, _, hkeep⟩ :=
    RangeFields.loop_frame P _ md post m3 w3 m w1 hrun3 (hd3.trans hd2)
  have hchecked : singularTypeIsValid P fd v = true ∧ (fd.IsList = false → fd.IsMap = false) := by
    obtain ⟨v1, hv1, hstore⟩ := SetRandomValueFun_ret hstep
    rw [hv] at hv1
    simp only [Result.ret.injEq, Prod.mk.injEq] at hv1
    obtain ⟨rfl, _⟩ := hv1
    by_cases hl : fd.IsList = true
    · simp only [hl, if_true] at hstore
      obtain ⟨elems, _, happ⟩ := hstore
      exact ⟨(Message.Append_ret happ).1, fun h => by rw [hl] at h; cases h⟩
    · simp only [hl] at hstore
      have hl2 : fd.IsList = false := by simpa using hl
      have := singular_of_typeIsValid P fd v (Message.Set_ret hstore).1 hl2
      exact ⟨this.1, fun _ => this.2⟩
  refine ⟨m2, w2, v, w3, ?_, hv, hchecked.1, hchecked.2, ?_⟩
  · rw [hsplit, declaredBefore_append pre post fd hnotpre]
    exact hrun1
  · rw [hkeep fd.Number (fun g hg => ⟨hpost g hg, hclear g hg⟩)]
    exact hset (hnone2 fd.Number hpre (NewMessage_get? md _))

/-- What `isSet` answers on the value that `GenerateRandomValue` returned for a
singular field that is no map: unset only for the enum field without presence
whose enum starts with 0. -/
theorem isSet_generated (P : Pool)
    (gen : MessageDescriptor → World → Result (Message × World)) (fd : FieldDescriptor)
    (w : World) (v : Value) (w1 : World)
    (hgen : GenerateRandomValue P gen fd w = .ret (v, w1))
    (hvalid : singularTypeIsValid P fd v = true)
    (hmap : fd.IsMap = false) (hlist : fd.IsList = false) :
    isSet fd v = .ret (!zeroEnumWithoutPresence fd) := by
  unfold isSet zeroEnumWithoutPresence
  simp only [hmap, hlist, Bool.false_eq_true, if_false, Bool.not_false, Bool.true_and]
  cases ho : fd.ContainingOneof with
  | some od => simp
  | none =>
    cases hp : fd.HasPresence with
    | true => simp
    | false =>
      unfold GenerateRandomValue at hgen
      unfold singularTypeIsValid at hvalid
      cases hk : fd.Kind <;> simp only [hk] at hgen hvalid ⊢ <;>
        try (simp only [Result.ret.injEq, Prod.mk.injEq] at hgen
             obtain ⟨rfl, rfl⟩ := hgen
             simp [Value.getBool, Value.getInt, Value.getUint, Value.getFloatBits,
               Value.getBytes])
      · cases he : fd.Enum with
        | none => simp [he] at hgen
        | some e =>
          cases hv : e.Values with
          | nil => simp [he, hv] at hgen
          | cons v0 rest =>
            simp only [he, hv, Result.ret.injEq, Prod.mk.injEq] at hgen
            obtain ⟨rfl, rfl⟩ := hgen
            simp only [hv, Value.getEnum, Result.ret_bind]
            rfl
      · simp

/-! ## Claims on effects, lookup, order and termination -/

/-! ## The world after a call -/

theorem World.advance_zero (w : World) : w.advance 0 [] = w := by
  cases w
  simp [World.advance]

theorem World.advance_advance (w : World) (k1 : Nat) (l1 : List String) (k2 : Nat)
    (l2 : List String) :
    (w.advance k1 l1).advance k2 l2 = w.advance (k1 + k2) (l1 ++ l2) := by
  simp only [World.advance, List.append_assoc, World.mk.injEq, and_true]
  funext n
  congr 1
  omega

theorem GenerateRandomValue_world (P : Pool)
    (gen : MessageDescriptor → World → Result (Message × World))
    (T : MessageRef → Nat) (L : MessageRef → List String) (fd : FieldDescriptor)
    (hgen : ∀ r, fd.Kind = .MessageKind → fd.Message = some r →
      ∀ w m w1, gen (P r) w = .ret (m, w1) → w1 = w.advance (T r) (L r))
    (w : World) (v : Value) (w1 : World)
    (h : GenerateRandomValue P gen fd w = .ret (v, w1)) :
    w1 = w.advance (nestedReads T fd) (nestedLines L fd) := by
  unfold GenerateRandomValue at h
  unfold nestedReads nestedLines
  cases hk : fd.Kind <;> simp only [hk] at h ⊢ <;>
    try (simp only [Result.ret.injEq, Prod.mk.injEq] at h
         obtain ⟨rfl, rfl⟩ := h
         exact (World.advance_zero _).symm)
  · cases he : fd.Enum with
    | none => simp [he] at h
    | some e =>
      cases hv : e.Values with
      | nil => simp [he, hv] at h
      | cons v0 rest =>
        simp only [he, hv, Result.ret.injEq, Prod.mk.injEq] at h
        obtain ⟨rfl, rfl⟩ := h
        exact (World.advance_zero _).symm
  · cases hm : fd.Message with
    | none => simp [hm] at h
    | some r =>
      simp only [hm, Result.bind_eq_ret] at h
      obtain ⟨⟨n, w5⟩, hn, hv⟩ := h
      simp only [Result.ret.injEq, Prod.mk.injEq] at hv
      obtain ⟨rfl, rfl⟩ := hv
      exact hgen r hk hm w n w5 hn

theorem RangeFields.loop_world (P : Pool)
    (gen : MessageDescriptor → World → Result (Message × World))
    (T : MessageRef → Nat) (L : MessageRef → List String) :
    ∀ (fs : List FieldDescriptor),
      (∀ fd ∈ fs, ∀ r, fd.Kind = .MessageKind → fd.Message = some r →
        ∀ w m w1, gen (P r) w = .ret (m, w1) → w1 = w.advance (T r) (L r)) →
      ∀ (m : Message) (w : World) (m1 : Message) (w1 : World),
        RangeFields.loop (SetRandomValueFun P gen) fs (m, w) = .ret (m1, w1) →
        w1 = w.advance (fs.map (nestedReads T)).sum (fs.flatMap (nestedLines L)) := by
  intro fs
  induction fs with
  | nil =>
    intro _ m w m1 w1 h
    simp only [RangeFields.loop, Result.ret.injEq, Prod.mk.injEq] at h
    obtain ⟨rfl, rfl⟩ := h
    exact (World.advance_zero _).symm
  | cons g rest ih =>
    intro hgen m w m1 w1 h
    simp only [RangeFields.loop] at h
    obtain ⟨⟨b, m2, w2⟩, hstep, hrest⟩ := Result.bind_eq_ret.1 h
    obtain ⟨v, hv, _⟩ := SetRandomValueFun_ret hstep
    have h2 := GenerateRandomValue_world P gen T L g (hgen g (List.mem_cons_self _ _)) w v w2 hv
    have h1 := ih (fun fd hfd => hgen fd (List.mem_cons_of_mem _ hfd)) m2 w2 m1 w1 hrest
    rw [h1, h2, World.advance_advance, List.map_cons, List.sum_cons, List.flatMap_cons]

/-- The world that a returning call leaves: the clock was read `clockReads` times
and the lines of `stderrLines` were written to standard error. -/
theorem GenerateRandomMessage_world (P : Pool) :
    ∀ (fuel : Nat) (md : MessageDescriptor) (w : World) (m : Message) (w1 : World),
      GenerateRandomMessage P fuel md w = .ret (m, w1) →
      w1 = w.advance (clockReads P fuel md) (stderrLines P fuel md) := by
  intro fuel
  induction fuel with
  | zero => intro md w m w1 h; simp [GenerateRandomMessage] at h
  | succ n ih =>
    intro md w m w1 h
    rw [GenerateRandomMessage_succ] at h
    by_cases hts : md.FullName = "google.protobuf.Timestamp"
    · simp only [hts, if_true, Result.ret.injEq, Prod.mk.injEq] at h
      rw [← h.2]
      simp [stderrLines, clockReads, hts, World.Now, World.Fprintln, World.advance]
    · simp only [hts, if_false, RangeFields] at h
      have hloop := RangeFields.loop_world P (GenerateRandomMessage P n)
        (fun r => clockReads P n (P r)) (fun r => stderrLines P n (P r)) md.Fields
        (fun fd _ r _ _ w2 m2 w3 hret => ih (P r) w2 m2 w3 hret) _ _ m w1 h
      rw [hloop]
      have hname : w.Fprintln md.Name = w.advance 0 [md.Name ++ "\n"] := by
        simp [World.Fprintln, World.advance]
      rw [hname, World.advance_advance]
      simp [stderrLines, clockReads, hts]

/-- C2, as the specification states it, fails three times: the call returns and a
declared field is not set in the returned instance.  On `Choice` it is the
field `a`, which the later members of the oneof cleared: `Has` reports it
unset.  On the message named like the timestamp type it is the field `tags`,
which was never visited: the instance is of the generated timestamp type, holds
nothing under the number of the field, and `Has` refuses the descriptor.  On
the proto3 message `P3` it is the enum field `s`, which was given the first
value of its enum, the number 0, the zero value of a field without presence:
`Has` reports it unset. -/
theorem declared_field_left_unset :
    (∃ m w1 fd, GenerateRandomMessage personPool 2 choiceDescriptor (worldAt ⟨0, 0⟩)
        = .ret (m, w1) ∧
      fd ∈ choiceDescriptor.Fields ∧ fd.Number = 1 ∧ m.Has fd = .ret false) ∧
    (∃ m w1 fd, GenerateRandomMessage personPool 1 taggedTimestampDescriptor (worldAt ⟨0, 0⟩)
        = .ret (m, w1) ∧
      fd ∈ taggedTimestampDescriptor.Fields ∧ fd.Number = 3 ∧
      m.Descriptor = timestampDescriptor ∧ m.get? fd.Number = none ∧ m.Has fd = .panic) ∧
    (∃ m w1 fd, GenerateRandomMessage personPool 1 p3Descriptor (worldAt ⟨0, 0⟩) = .ret (m, w1) ∧
      fd ∈ p3Descriptor.Fields ∧ m.get? fd.Number = some (.enum 0) ∧ m.Has fd = .ret false) :=
  ⟨⟨_, _, _, rfl, List.mem_cons_self _ _, rfl, rfl⟩,
   ⟨_, _, _, rfl, List.mem_cons_of_mem _ (List.mem_cons_of_mem _ (List.mem_cons_self _ _)), rfl,
    rfl, rfl, rfl⟩,
   ⟨_, _, _, rfl, List.mem_cons_self _ _, rfl, rfl⟩⟩

/-- C2, amended: on a well-formed message type not named
`google.protobuf.Timestamp` on which `GenerateRandomMessage` returns, `Has`
reports every declared field that no field declared later shares a oneof with
as set in the returned instance, except the singular enum field without
presence, outside any oneof, whose enum starts with the number 0: that one
holds the number 0 and is reported unset.  (A field is a list or a map, not both.) -/
theorem GenerateRandomMessage_sets_fields (P : Pool) (fuel : Nat) (md : MessageDescriptor)
    (w : World) (m : Message) (w1 : World)
    (hts : md.FullName ≠ "google.protobuf.Timestamp") (hwf : WellFormed md)
    (hret : GenerateRandomMessage P fuel md w = .ret (m, w1))
    (fd : FieldDescriptor) (hfd : fd ∈ md.Fields) (hlast : KeptToEnd md fd)
    (hmap : fd.IsList = true → fd.IsMap = false) :
    m.Has fd = .ret (!zeroEnumWithoutPresence fd) := by
  cases fuel with
  | zero => simp [GenerateRandomMessage] at hret
  | succ n =>
    obtain ⟨m2, w2, v, w3, _, hgen, hvalid, hnomap, hget⟩ :=
      GenerateRandomMessage_field_at P n md w m w1 hts hwf.1 hret fd hfd hlast
    have hd : m.Descriptor = md := by
      rw [GenerateRandomMessage_succ] at hret
      simp only [hts, if_false, RangeFields] at hret
      exact (RangeFields.loop_frame P _ md md.Fields _ _ m w1 hret (NewMessage_Descriptor md)).1
    unfold Message.Has
    rw [hd, if_pos hfd, hget]
    by_cases hl : fd.IsList = true
    · simp [isSet, zeroEnumWithoutPresence, hl, hmap hl]
    · have hl2 : fd.IsList = false := by simpa using hl
      simp only [hl2, Bool.false_eq_true, if_false]
      exact isSet_generated P _ fd w2 v w3 hgen hvalid (hnomap hl2) hl2

/-- C2, amended, at `Person` and its field `home`, which `Has` reports as set. -/
theorem GenerateRandomMessage_sets_fields_witness :
    personInstance.Has (messageField "home" 4 1) = .ret true :=
  GenerateRandomMessage_sets_fields personPool 2 personDescriptor (worldAt ⟨0, 0⟩)
    personInstance _ (by decide) personDescriptor_wellFormed rfl (messageField "home" 4 1)
    (by simp [personDescriptor]) (KeptToEnd_of_not_oneof _ _ rfl) (fun h => by cases h)

/-- C6, as the specification states it, fails.  On the message named like the
timestamp type the call returns and nothing is stored under the nested-message
field `home` (number 5); on `Choice` the call returns and nothing is stored
under the nested-message field `d` (number 3), which the later member of its
oneof cleared. -/
theorem nested_message_not_stored :
    (∃ m w1, GenerateRandomMessage personPool 1 taggedTimestampDescriptor (worldAt ⟨0, 0⟩)
        = .ret (m, w1) ∧ messageField "home" 5 1 ∈ taggedTimestampDescriptor.Fields ∧
      m.get? 5 = none) ∧
    (∃ m w1, GenerateRandomMessage personPool 2 choiceDescriptor (worldAt ⟨0, 0⟩) = .ret (m, w1) ∧
      { messageField "d" 3 1 with ContainingOneof := some 0 } ∈ choiceDescriptor.Fields ∧
      m.get? 3 = none) :=
  ⟨⟨_, _, rfl, by simp [taggedTimestampDescriptor], rfl⟩,
   ⟨_, _, rfl, by simp [choiceDescriptor], rfl⟩⟩

/-- C6, amended: on a well-formed message type not named
`google.protobuf.Timestamp` on which `GenerateRandomMessage` returns, take a
nested-message field `fd` that no field declared later shares a oneof with.
The fields declared before `fd` were filled first, from the fresh instance and
the world after the name of `md` was written; in the world `w2` that this left,
`GenerateRandomMessage` on the descriptor `fd.Message()` returned an instance
`n`, and the returned instance holds `n` under `fd`: as the value of the field
when it is singular, as the one element of its list when it is repeated. -/
theorem GenerateRandomMessage_nested (P : Pool) (fuel : Nat) (md : MessageDescriptor)
    (w : World) (m : Message) (w1 : World)
    (hts : md.FullName ≠ "google.protobuf.Timestamp") (hwf : WellFormed md)
    (hret : GenerateRandomMessage P (fuel + 1) md w = .ret (m, w1))
    (fd : FieldDescriptor) (hfd : fd ∈ md.Fields) (hlast : KeptToEnd md fd)
    (r : MessageRef) (hk : fd.Kind = .MessageKind) (hm : fd.Message = some r) :
    ∃ m2 w2 n w3,
      RangeFields.loop (SetRandomValueFun P (GenerateRandomMessage P fuel))
        (declaredBefore md.Fields fd) (NewMessage md, w.Fprintln md.Name) = .ret (m2, w2) ∧
      GenerateRandomMessage P fuel (P r) w2 = .ret (n, w3) ∧
      m.get? fd.Number = some (if fd.IsList then .list [.message n] else .message n) := by
  obtain ⟨m2, w2, v, w3, hrun, hgen, _, _, hget⟩ :=
    GenerateRandomMessage_field_at P fuel md w m w1 hts hwf.1 hret fd hfd hlast
  simp only [GenerateRandomValue, hk, hm, Result.bind_eq_ret] at hgen
  obtain ⟨⟨n, w4⟩, hn, hv⟩ := hgen
  simp only [Result.ret.injEq, Prod.mk.injEq] at hv
  obtain ⟨rfl, rfl⟩ := hv
  exact ⟨m2, w2, n, w4, hrun, hn, hget⟩

/-- C6, amended, at `Person` and its field `home` of type `Address`: after name,
age and emails were filled, the call on `Address` returned what `home` holds. -/
theorem GenerateRandomMessage_nested_witness :
    ∃ m2 w2 n w3,
      RangeFields.loop (SetRandomValueFun personPool (GenerateRandomMessage personPool 1))
        (declaredBefore personDescriptor.Fields (messageField "home" 4 1))
        (NewMessage personDescriptor, (worldAt ⟨0, 0⟩).Fprintln personDescriptor.Name)
          = .ret (m2, w2) ∧
      GenerateRandomMessage personPool 1 (personPool 1) w2 = .ret (n, w3) ∧
      personInstance.get? 4 = some (.message n) :=
  GenerateRandomMessage_nested personPool 1 personDescriptor (worldAt ⟨0, 0⟩)
    personInstance _ (by decide) personDescriptor_wellFormed rfl (messageField "home" 4 1)
    (by simp [personDescriptor]) (KeptToEnd_of_not_oneof _ _ rfl) 1 rfl rfl

/-- C11, as the specification states it, fails on `Address`: the call returns and
has written the line `Address` to a standard error that was empty. -/
theorem address_call_writes_stderr :
    ∃ m w1, GenerateRandomMessage personPool 1 addressDescriptor (worldAt ⟨0, 0⟩) = .ret (m, w1) ∧
      (worldAt ⟨0, 0⟩).stderr = [] ∧ w1.stderr = ["Address\n"] :=
  ⟨_, _, rfl, rfl, rfl⟩

/-- C11, amended: a call of `GenerateRandomMessage` that returns leaves the world
(clock, standard error, standard output) changed in exactly two ways.  Standard
error has gained one line for each call of `GenerateRandomMessage` made (itself
first, then the nested calls in the order of the fields), each the short name
of the descriptor of the call; and the clock has been read once for each of
these calls made on a descriptor named `google.protobuf.Timestamp`.  Nothing
is written to standard output. -/
theorem GenerateRandomMessage_writes_names (P : Pool) (fuel : Nat) (md : MessageDescriptor)
    (w : World) (m : Message) (w1 : World)
    (h : GenerateRandomMessage P fuel md w = .ret (m, w1)) :
    w1 = w.advance (clockReads P fuel md) (stderrLines P fuel md) ∧
    w1.stderr = w.stderr ++ stderrLines P fuel md ∧
    w1.clock = (fun n => w.clock (n + clockReads P fuel md)) ∧
    w1.stdout = w.stdout ∧
    ∃ rest, stderrLines P fuel md = (md.Name ++ "\n") :: rest := by
  have hw := GenerateRandomMessage_world P fuel md w m w1 h
  refine ⟨hw, by rw [hw]; rfl, by rw [hw]; rfl, by rw [hw]; rfl, ?_⟩
  cases fuel with
  | zero => simp [GenerateRandomMessage] at h
  | succ n => exact ⟨_, rfl⟩

/-- C11, amended, at `Event`: the call writes the lines `Event` and `Timestamp`
and reads the clock once. -/
theorem GenerateRandomMessage_writes_names_witness :
    ∃ w1 : World,
      GenerateRandomMessage eventPool 2 eventDescriptor (worldAt ⟨1, 0⟩)
        = .ret (eventInstance ⟨1, 0⟩, w1) ∧
      w1 = (worldAt ⟨1, 0⟩).advance (clockReads eventPool 2 eventDescriptor)
        (stderrLines eventPool 2 eventDescriptor) ∧
      stderrLines eventPool 2 eventDescriptor = ["Event\n", "Timestamp\n"] ∧
      clockReads eventPool 2 eventDescriptor = 1 :=
  ⟨_, rfl,
    (GenerateRandomMessage_writes_names eventPool 2 eventDescriptor (worldAt ⟨1, 0⟩)
      (eventInstance ⟨1, 0⟩) _ rfl).1, by decide, by decide⟩

/-- C14: `Labels`, whose map field refers to its entry type, and `WithGroup` have
no chain of nested-message references longer than one link, and no call on them
returns an instance: within the depth the chains allow, the call on `Labels`
panics when `Set` refuses the entry message for the map field, and the call on
`WithGroup` panics on the zero value of the group field. -/
theorem acyclic_schema_panics :
    ChainsWithin labelsPool 1 labelsDescriptor ∧
    (∀ fuel w, GenerateRandomMessage labelsPool (fuel + 2) labelsDescriptor w = .panic) ∧
    (∀ fuel w x, GenerateRandomMessage labelsPool fuel labelsDescriptor w ≠ .ret x) ∧
    ChainsWithin labelsPool 0 groupDescriptor ∧
    (∀ fuel w, GenerateRandomMessage labelsPool (fuel + 1) groupDescriptor w = .panic) := by
  refine ⟨labelsDescriptor_chains, fun _ _ => rfl, ?_, groupDescriptor_chains _, fun _ _ => rfl⟩
  intro fuel w x h
  match fuel, h with
  | 0, h => cases h
  | 1, h => cases h
  | n + 2, h => cases h

/-- C15: when no descriptor named `google.protobuf.Timestamp` is reachable from
`md` through nested-message fields, `md` included, the instance that a returning
call of `GenerateRandomMessage` gives does not depend on the clock: the call
returns the same instance in every other world, and every returning call on
`md`, at any instant and under any depth bound, gives that instance. -/
theorem GenerateRandomMessage_clock_independent (P : Pool) (md : MessageDescriptor)
    (hfree : ∀ d, Relation.ReflTransGen (Nests P) md d →
      d.FullName ≠ "google.protobuf.Timestamp")
    (fuel : Nat) (w1 : World) (m : Message) (w3 : World)
    (h1 : GenerateRandomMessage P fuel md w1 = .ret (m, w3)) :
    (∀ w2 : World, ∃ w4, GenerateRandomMessage P fuel md w2 = .ret (m, w4)) ∧
    (∀ (fuel2 : Nat) (w2 : World) (m2 : Message) (w4 : World),
      GenerateRandomMessage P fuel2 md w2 = .ret (m2, w4) → m2 = m) := by
  have hany : ∀ w2 : World, ∃ w4, GenerateRandomMessage P fuel md w2 = .ret (m, w4) := by
    intro w2
    obtain ⟨w4, h4, _⟩ := GenerateRandomMessage_any_world P fuel md
      (timestampFree_of_nests P md hfree) w1 w2 m w3 trivial h1
    exact ⟨w4, h4⟩
  refine ⟨hany, ?_⟩
  intro fuel2 w2 m2 w4 h2
  obtain ⟨w5, h5⟩ := hany w2
  have h6 := GenerateRandomMessage_fuel_le P md w2 _ fuel (max fuel fuel2) (le_max_left _ _) h5
  have h7 := GenerateRandomMessage_fuel_le P md w2 _ fuel2 (max fuel fuel2) (le_max_right _ _) h2
  rw [h6] at h7
  simp only [Result.ret.injEq, Prod.mk.injEq] at h7
  exact h7.1.symm

/-- C15 at `Person`: the call made when the clock reads one instant returns the
instance that the call made at another instant returns. -/
theorem GenerateRandomMessage_clock_independent_witness :
    ∃ w4, GenerateRandomMessage personPool 2 personDescriptor (worldAt ⟨1800000000, 5⟩)
      = .ret (personInstance, w4) :=
  (GenerateRandomMessage_clock_independent personPool personDescriptor
    (fun d hd => by
      rcases personDescriptor_reaches d hd with h | h <;> subst h <;> decide)
    2 (worldAt ⟨1700000000, 0⟩) personInstance _ rfl).1 (worldAt ⟨1800000000, 5⟩)

/-- C12: the lookup can mismatch.  Against the registry whose only file has the
package `foo.bar` and declares the message `M`, the request `foo.barbaz.M`
returns without error the descriptor of `foo.bar.M`, whose fully-qualified name
differs from the requested one: the package occurs in the requested name as a
substring. -/
theorem findMessageDescriptor_mismatch :
    ∃ (reg : Files) (name : String) (md : MessageDescriptor),
      reg = [fooBarFile] ∧ name = "foo.barbaz.M" ∧ fooBarFile.Package = "foo.bar" ∧
      strings.Contains name fooBarFile.Package = true ∧
      findMessageDescriptor reg name = .ok md ∧
      md.FullName = "foo.bar.M" ∧ md.FullName ≠ name :=
  ⟨[fooBarFile], "foo.barbaz.M", fooBarM, rfl, rfl, rfl, rfl, rfl, rfl, by decide⟩

/-- C13: `RangeFields` applies the function to the fields in declared order, to
each field once, whatever boolean the function returns: a function that always
returns ends in the state that folding the fields from the first to the last
gives, and one that records its argument has recorded exactly the declared
fields, in order.  Hence `GenerateRandomMessage`, away from the timestamp type,
runs the closure of `SetRandomValueFun` over the fields in declared order. -/
theorem RangeFields_declared_order (md : MessageDescriptor) :
    (∀ (σ : Type) (b : FieldDescriptor → σ → Bool) (g : FieldDescriptor → σ → σ) (s : σ),
      RangeFields md (fun fd s => .ret (b fd s, g fd s)) s
        = .ret (md.Fields.foldl (fun s fd => g fd s) s)) ∧
    (∀ (b : FieldDescriptor → List FieldDescriptor → Bool),
      RangeFields md (fun fd seen => .ret (b fd seen, seen ++ [fd])) [] = .ret md.Fields) ∧
    (∀ (P : Pool) (fuel : Nat) (w : World), md.FullName ≠ "google.protobuf.Timestamp" →
      GenerateRandomMessage P (fuel + 1) md w
        = md.Fields.foldl
            (fun acc fd => acc.bind fun s =>
              (SetRandomValueFun P (GenerateRandomMessage P fuel) fd s).bind fun x => .ret x.2)
            (.ret (NewMessage md, w.Fprintln md.Name))) := by
  refine ⟨?_, ?_, ?_⟩
  · intro σ b g s
    exact RangeFields.loop_total b g md.Fields s
  · intro b
    have h := RangeFields.loop_total b (fun fd seen => seen ++ [fd]) md.Fields []
    have hfold : ∀ (fs acc : List FieldDescriptor),
        fs.foldl (fun seen fd => seen ++ [fd]) acc = acc ++ fs := by
      intro fs
      induction fs with
      | nil => intro acc; simp
      | cons fd rest ih => intro acc; simp [ih]
    rw [hfold] at h
    simpa [RangeFields] using h
  · intro P fuel w hts
    rw [GenerateRandomMessage_succ]
    simp only [hts, if_false, RangeFields]
    exact RangeFields.loop_eq_foldl _ _ _

/-- C13 at `Person`: a recording function that answers false on every field has
seen name, age, emails and home, in this order. -/
theorem RangeFields_declared_order_witness :
    RangeFields personDescriptor (fun fd seen => .ret (false, seen ++ [fd])) []
      = .ret [scalarField "name" 1 .StringKind, scalarField "age" 2 .Int32Kind,
          { scalarField "emails" 3 .StringKind with IsList := true }, messageField "home" 4 1] :=
  (RangeFields_declared_order personDescriptor).2.1 (fun _ _ => false)

/-- C16: when a registered file of package `P` declares a top-level message of
short name `M` (an identifier, so without dot), the lookup of `P.M`, or of `M`
when `P` is empty, returns a descriptor of short name `M`, not an error; and
for every registry and name the lookup returns the error "not found" exactly
when no registered file whose package occurs in the name declares a top-level
message whose short name is the last dot-separated segment of the name. -/
theorem findMessageDescriptor_found (reg : Files) :
    (∀ fd ∈ reg, ∀ md ∈ fd.Messages, '.' ∉ md.Name.data →
      ∃ d, findMessageDescriptor reg
          (if fd.Package = "" then md.Name else fd.Package ++ "." ++ md.Name) = .ok d ∧
        d.Name = md.Name) ∧
    (∀ name : String,
      findMessageDescriptor reg name = .error "not found" ↔
        ∀ fd ∈ reg, strings.Contains name fd.Package = true →
          ∀ md ∈ fd.Messages, md.Name ≠ FullName.Name name) := by
  constructor
  · intro fd hfd md hmd hdot
    generalize hname : (if fd.Package = "" then md.Name else fd.Package ++ "." ++ md.Name) = name
    have hseg : FullName.Name name = md.Name := by
      rw [← hname]
      unfold FullName.Name
      by_cases hp : fd.Package = ""
      · simp only [hp, if_true]
        rw [lastSegment_of_no_dot _ hdot]
      · simp only [hp, if_false]
        have hdata : (fd.Package ++ "." ++ md.Name).data = fd.Package.data ++ '.' :: md.Name.data := by
          simp [String.data_append]
        rw [hdata, lastSegment_append_dot _ _ hdot]
    have hcont : strings.Contains name fd.Package = true := by
      rw [strings.Contains_iff, ← hname]
      by_cases hp : fd.Package = ""
      · simp only [hp, if_true]
        exact List.nil_infix
      · simp only [hp, if_false, String.data_append, List.append_assoc]
        exact (List.prefix_append _ _).isInfix
    rw [findMessageDescriptor_eq]
    cases hfind : reg.findSome? (fun fd =>
        if strings.Contains name fd.Package then ByName fd.Messages (FullName.Name name)
        else none) with
    | none =>
      have hnone := List.findSome?_eq_none_iff.1 hfind fd hfd
      simp only [hcont, if_true, hseg] at hnone
      exact absurd rfl (ByName_eq_none.1 hnone md hmd)
    | some d =>
      obtain ⟨fd1, _, hd⟩ := List.exists_of_findSome?_eq_some hfind
      by_cases hc1 : strings.Contains name fd1.Package = true
      · simp only [hc1, if_true] at hd
        exact ⟨d, rfl, (ByName_eq_some hd).2.trans hseg⟩
      · simp [hc1] at hd
  · intro name
    rw [findMessageDescriptor_eq]
    cases hfind : reg.findSome? (fun fd =>
        if strings.Contains name fd.Package then ByName fd.Messages (FullName.Name name)
        else none) with
    | none =>
      simp only [true_iff]
      intro fd hfd hc
      have hnone := List.findSome?_eq_none_iff.1 hfind fd hfd
      simp only [hc, if_true] at hnone
      exact ByName_eq_none.1 hnone
    | some d =>
      simp only [reduceCtorEq, false_iff]
      intro hall
      obtain ⟨fd1, hfd1, hd⟩ := List.exists_of_findSome?_eq_some hfind
      by_cases hc1 : strings.Contains name fd1.Package = true
      · simp only [hc1, if_true] at hd
        obtain ⟨hmem, hn⟩ := ByName_eq_some hd
        exact hall fd1 hfd1 hc1 d hmem hn
      · simp [hc1] at hd

/-- C16 at the registry of the files of `foo.bar` and of the Person schema: the
lookup of `Person`, declared without package, returns a descriptor of that short name. -/
theorem findMessageDescriptor_found_witness :
    ∃ d, findMessageDescriptor [fooBarFile, personFile] "Person" = .ok d ∧ d.Name = "Person" :=
  (findMessageDescriptor_found [fooBarFile, personFile]).1 personFile
    (by simp) personDescriptor (by simp [personFile]) (by decide)

end Bufmg
